import Mathlib

/-!
# Verification of the zig-luau boundary layer (`src/luau.cpp`)

A shallow embedding of the flag registry bridge (`zig_luau_setflag_*`,
`zig_luau_getflag_*`, `zig_luau_getflags`, `zig_luau_freeflags`), of the boundary
exception bridge (`zig_luau_try_catch_js`, `zig_luau_try_impl`,
`zig_luau_catch_impl`) and of the assertion handler (`assertionHandler`,
`zig_registerAssertionHandler`).

Conventions of the embedding:
* a `char` is a `Byte` (`Fin 256`); a `const char *` is the list of bytes stored at
  the pointer, and the string it denotes ends before its first zero byte (`cstr`);
* a `std::string` is the list of its bytes (it may contain zero bytes);
* the intrusive list `FValue<T>::list` / `next` is a Lean list of records;
* C functions that touch the registry take the registry state and return the
  state they leave, next to their C return value;
* `zig_luau_getflags` is embedded twice: on values (`zig_luau_getflags`, the arrays
  as lists) and with its allocations on a heap (`zig_luau_getflags_heap`), the second
  agreeing with the first on the content of the snapshot.
-/

namespace ZigLuau

/-- One `char` of C memory. -/
abbrev Byte := Fin 256

/-- The string a `const char *` denotes: the bytes before the first zero byte
(`strlen` of them). -/
def cstr (p : List Byte) : List Byte :=
  p.takeWhile (fun c => decide (c ≠ 0))

/-- The constructor `std::string(name, nameLen)`: exactly the first `nameLen` bytes of the buffer,
zero bytes included. -/
def mkString (name : List Byte) (nameLen : Nat) : List Byte :=
  name.take nameLen

/-- The accessor `std::string::c_str()`: the bytes followed by a terminator. -/
def c_str (s : List Byte) : List Byte :=
  s ++ [0]

/-- The call `strdup(p)`: a fresh block holding the string at `p` and its terminator. -/
def strdup (p : List Byte) : List Byte :=
  cstr p ++ [0]

/-- Modelled from the spec: the Flag Record `Luau::FValue<T>` declared in
`Luau/Common.h` of the Luau library, outside `luau.cpp`. A record carries an
immutable `name` (a `const char *`, here the bytes stored at that pointer) and a
mutable scalar `value`; the `next` link is the tail of the Lean list holding it. -/
structure FValue (T : Type) where
  value : T
  name : List Byte
  deriving DecidableEq, Repr

/-- The registry state: the two intrusive lists `Luau::FValue<bool>::list` and
`Luau::FValue<int>::list`, in traversal order. -/
structure Registry where
  boolList : List (FValue Bool)
  intList : List (FValue Int)
  deriving DecidableEq, Repr

/-- The scan of the two setters:
`for (flag = list; flag; flag = flag->next) if (flagName == flag->name) { flag->value = value; return true; }`
followed by `return false`. Returns the C return value and the list afterwards. -/
def setLoop {T : Type} (flagName : List Byte) (value : T) :
    List (FValue T) → Bool × List (FValue T)
  | [] => (false, [])
  | flag :: next =>
    if flagName = cstr flag.name then
      (true, { flag with value := value } :: next)
    else
      ((setLoop flagName value next).1, flag :: (setLoop flagName value next).2)

/-- The scan of the two getters:
`for (flag = list; flag; flag = flag->next) if (flagName == flag->name) { *value = flag->value; return true; }`
followed by `return false`. `slot` is the content of `*value` on entry; the result
is the C return value and the content of `*value` on exit. -/
def getLoop {T : Type} (flagName : List Byte) (slot : T) :
    List (FValue T) → Bool × T
  | [] => (false, slot)
  | flag :: next =>
    if flagName = cstr flag.name then (true, flag.value)
    else getLoop flagName slot next

/-- The function `bool zig_luau_setflag_bool(const char *name, size_t nameLen, bool value)`. -/
def zig_luau_setflag_bool (name : List Byte) (nameLen : Nat) (value : Bool)
    (s : Registry) : Bool × Registry :=
  let flagName := mkString name nameLen
  let r := setLoop flagName value s.boolList
  (r.1, { s with boolList := r.2 })

/-- The function `bool zig_luau_setflag_int(const char *name, size_t nameLen, int value)`. -/
def zig_luau_setflag_int (name : List Byte) (nameLen : Nat) (value : Int)
    (s : Registry) : Bool × Registry :=
  let flagName := mkString name nameLen
  let r := setLoop flagName value s.intList
  (r.1, { s with intList := r.2 })

/-- The function `bool zig_luau_getflag_bool(const char *name, size_t nameLen, bool *value)`.
`slot` is the content of the host's output location `*value` before the call. The
result is the C return value paired with the content of `*value` after the call,
and the registry, which the function only reads. -/
def zig_luau_getflag_bool (name : List Byte) (nameLen : Nat) (slot : Bool)
    (s : Registry) : (Bool × Bool) × Registry :=
  let flagName := mkString name nameLen
  (getLoop flagName slot s.boolList, s)

/-- The function `bool zig_luau_getflag_int(const char *name, size_t nameLen, int *value)`. -/
def zig_luau_getflag_int (name : List Byte) (nameLen : Nat) (slot : Int)
    (s : Registry) : (Bool × Int) × Registry :=
  let flagName := mkString name nameLen
  (getLoop flagName slot s.intList, s)

/-- The type `struct FlagGroup { const char **names; int *types; size_t size; }`: the two
arrays are lists; each entry of `names` is the block of bytes it points to. -/
structure FlagGroup where
  names : List (List Byte)
  types : List Int
  size : Nat
  deriving DecidableEq, Repr

/-- One of the two collecting loops of `zig_luau_getflags`:
`for (flag = list; flag; flag = flag->next) { names_list.push_back(flag->name); types_list.push_back(tag); }`
acting on the pair `(names_list, types_list)`. -/
def collectLoop {T : Type} (tag : Int) :
    List (FValue T) → List (List Byte) × List Int → List (List Byte) × List Int
  | [], acc => acc
  | flag :: next, acc =>
    collectLoop tag next (acc.1 ++ [cstr flag.name], acc.2 ++ [tag])

/-- The copying loop of `zig_luau_getflags`:
`for (size_t i = 0; i < size; ++i) { names[i] = strdup(names_list[i].c_str()); types[i] = types_list[i]; }`
acting on the pair of freshly allocated arrays `(names, types)`. -/
def copyLoop (names_list : List (List Byte)) (types_list : List Int) (size : Nat)
    (arrays : List (List Byte) × List Int) : List (List Byte) × List Int :=
  (List.range size).foldl
    (fun a i => (a.1.set i (strdup (c_str (names_list.getD i []))),
                 a.2.set i (types_list.getD i 0)))
    arrays

/-- The function `FlagGroup zig_luau_getflags()`. The arrays from `new[]` start with arbitrary
content, here empty blocks and zeros, and every cell is overwritten by the loop. -/
def zig_luau_getflags (s : Registry) : FlagGroup × Registry :=
  let l0 : List (List Byte) × List Int := ([], [])
  let l1 := collectLoop 0 s.boolList l0
  let l2 := collectLoop 1 s.intList l1
  let names_list := l2.1
  let types_list := l2.2
  let size := names_list.length
  let names : List (List Byte) := List.replicate size []
  let types : List Int := List.replicate size 0
  let arrays := copyLoop names_list types_list size (names, types)
  ({ names := arrays.1, types := arrays.2, size := size }, s)

/-- A call of one of the two typed setters, with its arguments. -/
inductive SetCall where
  | setBool (name : List Byte) (nameLen : Nat) (value : Bool)
  | setInt (name : List Byte) (nameLen : Nat) (value : Int)
  deriving DecidableEq, Repr

/-- Perform one setter call; the return value and the registry afterwards. -/
def SetCall.run : SetCall → Registry → Bool × Registry
  | .setBool name nameLen value, s => zig_luau_setflag_bool name nameLen value s
  | .setInt name nameLen value, s => zig_luau_setflag_int name nameLen value s

/-- Perform a sequence of setter calls in order, ignoring their return values. -/
def runCalls : List SetCall → Registry → Registry
  | [], s => s
  | c :: cs, s => runCalls cs (c.run s).2

/-- Membership of a name in a list: some record of the list has the string
`flagName` as its name. -/
def HasName {T : Type} (flagName : List Byte) (l : List (FValue T)) : Prop :=
  ∃ r ∈ l, cstr r.name = flagName

instance {T : Type} (flagName : List Byte) (l : List (FValue T)) :
    Decidable (HasName flagName l) := by
  unfold HasName; infer_instance

/-- Example registry: boolean flags `x`, `y`, `x` and integer flags `z`, `x`; the
boolean list breaks per-type uniqueness on purpose. -/
def exRegistry : Registry :=
  { boolList := [{ value := false, name := [120, 0] }, { value := false, name := [121, 0] },
                 { value := false, name := [120, 0] }],
    intList := [{ value := 10, name := [122, 0] }, { value := 0, name := [120, 0] }] }

/-- Example registry with a repeated boolean name `x` (values true, then false) and
a repeated integer name `x` (values 7, then 9). -/
def exDuplicates : Registry :=
  { boolList := [{ value := false, name := [121, 0] }, { value := true, name := [120, 0] },
                 { value := false, name := [120, 0] }],
    intList := [{ value := 7, name := [120, 0] }, { value := 9, name := [120, 0] }] }

/-! ## The boundary exception bridge

Host operations are sequences of steps acting on a host state `σ`; a step either
performs an action or raises an error of type `ε` through `LUAU_THROW`, that is
`zig_luau_throw_js`. Every `std::function` object carries a label, and calling it
records in the trace of the world which object was entered, with which argument, and
which of its steps were executed. -/

/-- What is recorded when a function object is used. For a `std::function<void()>`
labelled `l`: `call l` when it is invoked, `step l k` when its `k`-th step is
executed. For a `std::function<void(const std::exception &)>` labelled `l`:
`callWith l e` when it is invoked with the error `e`, `stepWith l k` when its `k`-th
step is executed. -/
inductive Event (ε : Type) where
  | call (label : Nat)
  | step (label : Nat) (k : Nat)
  | callWith (label : Nat) (e : ε)
  | stepWith (label : Nat) (k : Nat)

/-- The event is the invocation of an error-taking function object (a handler). -/
def Event.isCallWith {ε : Type} : Event ε → Bool
  | .callWith _ _ => true
  | _ => false

/-- The event is the execution of a step of the `std::function<void()>` object
labelled `l`. -/
def Event.isStepOf {ε : Type} (l : Nat) : Event ε → Bool
  | .step l' _ => decide (l' = l)
  | _ => false

/-- The world a call runs in: the host state and the trace of events so far. -/
structure World (ε σ : Type) where
  host : σ
  trace : List (Event ε)

/-- How a call ends: it returns to its caller, or an error raised inside it unwinds
through it. -/
inductive Outcome (ε α : Type) where
  | returned (w : α)
  | raised (e : ε) (w : α)

/-- The world in which a call ended. -/
def Outcome.world {ε α : Type} : Outcome ε α → α
  | .returned w => w
  | .raised _ w => w

/-- A C++ call returning `void`: from the world before it to how it ends. -/
abbrev Call (ε σ : Type) := World ε σ → Outcome ε (World ε σ)

/-- One step of a host operation: an action on the host state, or `LUAU_THROW(e)`. -/
inductive Step (ε σ : Type) where
  | act (f : σ → σ)
  | throw (e : ε)

/-- A `std::function<void()>` object: its label and its steps. -/
structure Fn (ε σ : Type) where
  label : Nat
  steps : List (Step ε σ)

/-- A `std::function<void(const std::exception &)>` object: its label and, for each
error it may be given, its steps. -/
structure Handler (ε σ : Type) where
  label : Nat
  steps : ε → List (Step ε σ)

/-- The type `struct TryCatchContext { std::function<void()> trying; std::function<void(const std::exception &)> catching; }`. -/
structure TryCatchContext (ε σ : Type) where
  trying : Fn ε σ
  catching : Handler ε σ

/-- Modelled from the spec: the imported host primitive `throw`
(`zig_luau_throw_js_impl`), implemented by the host and not in `luau.cpp`: it raises
the error it is given. -/
def hostThrow {ε σ : Type} (e : ε) : Call ε σ :=
  fun w => .raised e w

/-- The function `void zig_luau_throw_js(const std::exception &e)`, over the imported
`zig_luau_throw_js_impl`. -/
def zig_luau_throw_js {ε σ : Type} (zig_luau_throw_js_impl : ε → Call ε σ) (e : ε) :
    Call ε σ :=
  zig_luau_throw_js_impl e

/-- Run the steps of a function object, the next one being its `k`-th and `tag k`
the event recording it: an action updates the host state, `LUAU_THROW(e)` calls
`zig_luau_throw_js` and the remaining steps are left behind. -/
def runSteps {ε σ : Type} (tag : Nat → Event ε) : List (Step ε σ) → Nat → Call ε σ
  | [], _, w => .returned w
  | .act f :: rest, k, w =>
    runSteps tag rest (k + 1) { host := f w.host, trace := w.trace ++ [tag k] }
  | .throw e :: _, k, w =>
    zig_luau_throw_js hostThrow e { w with trace := w.trace ++ [tag k] }

/-- Calling a `std::function<void()>` object: `f()`. -/
def Fn.invoke {ε σ : Type} (f : Fn ε σ) : Call ε σ :=
  fun w =>
    runSteps (Event.step f.label) f.steps 0 { w with trace := w.trace ++ [.call f.label] }

/-- Calling a `std::function<void(const std::exception &)>` object: `h(e)`. -/
def Handler.invoke {ε σ : Type} (h : Handler ε σ) (e : ε) : Call ε σ :=
  fun w =>
    runSteps (Event.stepWith h.label) (h.steps e) 0
      { w with trace := w.trace ++ [.callWith h.label e] }

/-- The function `void zig_luau_try_impl(TryCatchContext *context)`: `context->trying();`. -/
def zig_luau_try_impl {ε σ : Type} (context : TryCatchContext ε σ) : Call ε σ :=
  context.trying.invoke

/-- The function `void zig_luau_catch_impl(TryCatchContext *context, const std::exception &e)`:
`context->catching(e);`. -/
def zig_luau_catch_impl {ε σ : Type} (context : TryCatchContext ε σ) (e : ε) : Call ε σ :=
  context.catching.invoke e

/-- The function `void zig_luau_try_catch_js(trying, catching)`, over the imported trampoline
`zig_luau_try_catch_js_impl`: bundle the two operations into a context and hand it
to the trampoline. -/
def zig_luau_try_catch_js {ε σ : Type}
    (zig_luau_try_catch_js_impl : TryCatchContext ε σ → Call ε σ)
    (trying : Fn ε σ) (catching : Handler ε σ) : Call ε σ :=
  let context : TryCatchContext ε σ := { trying := trying, catching := catching }
  zig_luau_try_catch_js_impl context

/-- Modelled from the spec: the imported host trampoline `try_catch`
(`zig_luau_try_catch_js_impl`), implemented by the host and not in `luau.cpp`. It
calls `zig_luau_try_impl` on the context; when that call returns it returns; when an
error raised inside it is intercepted, it calls `zig_luau_catch_impl` on the same
context with that error. -/
def hostTryCatch {ε σ : Type} (context : TryCatchContext ε σ) : Call ε σ :=
  fun w =>
    match zig_luau_try_impl context w with
    | .returned w' => .returned w'
    | .raised e w' => zig_luau_catch_impl context e w'

/-- The protected operation labelled `l` that performs the actions `pre`, then
raises `E`, and would perform the steps `post` after that. -/
def raisingFn {ε σ : Type} (l : Nat) (pre : List (σ → σ)) (E : ε) (post : List (Step ε σ)) :
    Fn ε σ :=
  { label := l, steps := pre.map Step.act ++ Step.throw E :: post }

/-- Example handler, labelled 0: it adds the error it is given to the host state. -/
def exCatching : Handler Nat Nat :=
  { label := 0, steps := fun e => [Step.act (fun h => h + e)] }

/-- The event is the invocation of a `std::function<void()>` object. -/
def Event.isCall {ε : Type} : Event ε → Bool
  | .call _ => true
  | _ => false

/-- The protected operation labelled `l` that performs the actions `acts` and never
raises. -/
def completingFn {ε σ : Type} (l : Nat) (acts : List (σ → σ)) : Fn ε σ :=
  { label := l, steps := acts.map Step.act }

/-- The matching criterion in the words of the specification: the record's name has
exactly `nameLen` bytes and they equal, byte for byte, the first `nameLen` bytes of
the buffer. To be compared with the test `flagName == flag->name` of the scans. -/
def SpecNameMatches {T : Type} (name : List Byte) (nameLen : Nat) (r : FValue T) : Prop :=
  (cstr r.name).length = nameLen ∧ ∀ i : Nat, i < nameLen → (cstr r.name)[i]? = name[i]?

instance {T : Type} (name : List Byte) (nameLen : Nat) (r : FValue T) :
    Decidable (SpecNameMatches name nameLen r) := by
  unfold SpecNameMatches; infer_instance

/-- Example registry in which one name is a proper prefix of another: boolean flags
`xy` (true) and `x` (false), integer flags `x` (1) and `xy` (2). -/
def exPrefix : Registry :=
  { boolList := [{ value := true, name := [120, 121, 0] }, { value := false, name := [120, 0] }],
    intList := [{ value := 1, name := [120, 0] }, { value := 2, name := [120, 121, 0] }] }

/-- Example registry of near misses for the query `xy`: boolean flags `xyz` (true)
and `x` (false), integer flag `xyz` (3). -/
def exNearMiss : Registry :=
  { boolList := [{ value := true, name := [120, 121, 122, 0] },
                 { value := false, name := [120, 0] }],
    intList := [{ value := 3, name := [120, 121, 122, 0] }] }

/-! ## The assertion handler -/

/-- The byte of an ASCII character of a source literal. -/
def charByte (c : Char) : Byte := Fin.ofNat c.toNat

/-- The conversion `%d` of `printf` for an `int`: a minus sign for a negative number,
then the decimal digits of its magnitude. -/
def fmtInt (n : Int) : List Byte :=
  if n < 0 then charByte '-' :: (Nat.toDigits 10 n.natAbs).map charByte
  else (Nat.toDigits 10 n.natAbs).map charByte

/-- An argument of `printf`: a `const char *` for `%s`, an `int` for `%d`. -/
inductive PrintfArg where
  | str (p : List Byte)
  | int (n : Int)

/-- The bytes `printf(format, args...)` writes, for formats using the conversions
`%s` and `%d`: `%s` writes the string at its argument up to the terminator, `%d` the
decimal form of its argument, any other character is written as it is. -/
def printf : List Char → List PrintfArg → List Byte
  | [], _ => []
  | '%' :: 's' :: rest, .str p :: args => cstr p ++ printf rest args
  | '%' :: 'd' :: rest, .int n :: args => fmtInt n ++ printf rest args
  | c :: rest, args => charByte c :: printf rest args

/-- The function `static int assertionHandler(const char *expr, const char *file, int line, const char *function)`:
`printf("%s(%d): ASSERTION FAILED: %s\n", file, line, expr); return 1;`.
`out` is what standard output holds before the call; the result is the returned
status and what standard output holds after it. -/
def assertionHandler (expr file : List Byte) (line : Int) (function : List Byte)
    (out : List Byte) : Int × List Byte :=
  (1, out ++ printf "%s(%d): ASSERTION FAILED: %s\n".toList
    [PrintfArg.str file, PrintfArg.int line, PrintfArg.str expr])

/-- The type `Luau::AssertHandler`, a pointer to a function of
`(const char *expr, const char *file, int line, const char *function)` returning
`int`, acting on standard output. -/
abbrev AssertHandler :=
  List Byte → List Byte → Int → List Byte → List Byte → Int × List Byte

/-- Modelled from the spec: the process-wide handler slot `Luau::assertHandler()`
declared in `Luau/Common.h` of the Luau library, outside `luau.cpp`; it holds the
installed handler, if any. -/
structure AssertSlot where
  handler : Option AssertHandler

/-- The function `void zig_registerAssertionHandler()`:
`Luau::assertHandler() = assertionHandler;`. -/
def zig_registerAssertionHandler (slot : AssertSlot) : AssertSlot :=
  { slot with handler := some assertionHandler }

/-- The value of a decimal digit byte `0`..`9`; `none` for any other byte. -/
def digitVal (b : Byte) : Option Nat :=
  if 48 ≤ b.val ∧ b.val ≤ 57 then some (b.val - 48) else none

/-- Read a run of decimal digits, most significant first, continuing from the value
`acc`; `none` when a byte is not a digit. -/
def readDigits : List Byte → Nat → Option Nat
  | [], acc => some acc
  | b :: rest, acc => (digitVal b).bind (fun d => readDigits rest (10 * acc + d))

/-- Read an unsigned decimal numeral: at least one digit, digits only, and no
leading zero except for the numeral `0` itself. -/
def readNat : List Byte → Option Nat
  | [] => none
  | b :: rest => if b = 48 ∧ rest ≠ [] then none else readDigits (b :: rest) 0

/-- Read a decimal numeral as a reader of the diagnostic line does: an unsigned
numeral for a number that is not negative, a minus sign followed by the unsigned
numeral of a positive magnitude for a negative one; `none` for anything else. This is
the meaning of `<line>` in the specification, independent of how `printf` produces
it. -/
def readDecimal : List Byte → Option Int
  | [] => none
  | b :: rest =>
    if b = 45 then
      match readNat rest with
      | some (m + 1) => some (Int.negSucc m)
      | _ => none
    else (readNat (b :: rest)).map Int.ofNat

/-- The text of the diagnostic line in the words of the specification:
`<file>(<line>): ASSERTION FAILED: <expr>`, without the newline, `digits` being the
numeral printed for the line. -/
def specDiagnostic (file : List Byte) (digits : List Byte) (expr : List Byte) : List Byte :=
  cstr file ++ [charByte '('] ++ digits ++
    ("): ASSERTION FAILED: ".toList.map charByte) ++ cstr expr

/-! ## Snapshot ownership: the heap

The heap tracks the allocations that cross the boundary: blocks from `malloc`
(through `strdup`) and from `new[]`. The automatic objects `names_list` and
`types_list` of `zig_luau_getflags` release their own storage when the function
returns and are kept as values. Addresses below `next` are all the addresses in use
before a call, the registry's own memory included; an allocation hands out `next`. -/

/-- What a live heap block holds: the bytes of a `malloc` block, or the cells of an
array from `new const char *[n]` (addresses) or from `new int[n]`. -/
inductive Block where
  | chars (bytes : List Byte)
  | ptrs (cells : List Nat)
  | ints (cells : List Int)
  deriving DecidableEq, Repr

/-- An allocation or release, with the address concerned. -/
inductive HeapEvent where
  | malloc (a : Nat)
  | newArray (a : Nat)
  | free (a : Nat)
  | deleteArray (a : Nat)
  deriving DecidableEq, Repr

/-- The heap: the next address to hand out, the live block at each address, and the
log of allocations and releases in order of occurrence. -/
@[ext]
structure Heap where
  next : Nat
  mem : Nat → Option Block
  log : List HeapEvent

/-- No address from `next` on is in use. -/
def Heap.Fresh (h : Heap) : Prop :=
  ∀ a : Nat, h.next ≤ a → h.mem a = none

/-- The empty heap starting at address `a0`. -/
def Heap.empty (a0 : Nat) : Heap :=
  { next := a0, mem := fun _ => none, log := [] }

/-- The call `malloc` of a block that is then filled with `bytes` (as `strdup`
does): the address of the block and the heap afterwards. -/
def Heap.malloc (h : Heap) (bytes : List Byte) : Nat × Heap :=
  (h.next,
    { next := h.next + 1,
      mem := fun a => if a = h.next then some (Block.chars bytes) else h.mem a,
      log := h.log ++ [HeapEvent.malloc h.next] })

/-- The expression `new const char *[n]`; the cells start with arbitrary content,
here null. -/
def Heap.newPtrs (h : Heap) (n : Nat) : Nat × Heap :=
  (h.next,
    { next := h.next + 1,
      mem := fun a => if a = h.next then some (Block.ptrs (List.replicate n 0)) else h.mem a,
      log := h.log ++ [HeapEvent.newArray h.next] })

/-- The expression `new int[n]`; the cells start with arbitrary content, here 0. -/
def Heap.newInts (h : Heap) (n : Nat) : Nat × Heap :=
  (h.next,
    { next := h.next + 1,
      mem := fun a => if a = h.next then some (Block.ints (List.replicate n 0)) else h.mem a,
      log := h.log ++ [HeapEvent.newArray h.next] })

/-- The assignment `p[i] = v` into a live array of addresses at `p`. -/
def Heap.storePtr (h : Heap) (p i v : Nat) : Heap :=
  match h.mem p with
  | some (Block.ptrs cells) =>
    { h with mem := fun a => if a = p then some (Block.ptrs (cells.set i v)) else h.mem a }
  | _ => h

/-- The assignment `p[i] = v` into a live array of `int` at `p`. -/
def Heap.storeInt (h : Heap) (p i : Nat) (v : Int) : Heap :=
  match h.mem p with
  | some (Block.ints cells) =>
    { h with mem := fun a => if a = p then some (Block.ints (cells.set i v)) else h.mem a }
  | _ => h

/-- Reading `p[i]` from a live array of addresses at `p`; `none` when there is no
such array or cell. -/
def Heap.loadPtr (h : Heap) (p i : Nat) : Option Nat :=
  match h.mem p with
  | some (Block.ptrs cells) => cells[i]?
  | _ => none

/-- The call `free(p)`: releases the live `malloc` block at `p`; `none` (a fault)
when `p` is not the address of a live `malloc` block. -/
def Heap.free (h : Heap) (p : Nat) : Option Heap :=
  match h.mem p with
  | some (Block.chars _) =>
    some { h with mem := fun a => if a = p then none else h.mem a,
                  log := h.log ++ [HeapEvent.free p] }
  | _ => none

/-- The statement `delete[] p`: releases the live array at `p`; `none` (a fault)
when `p` is not the address of a live array from `new[]`. -/
def Heap.deleteArray (h : Heap) (p : Nat) : Option Heap :=
  match h.mem p with
  | some (Block.ptrs _) =>
    some { h with mem := fun a => if a = p then none else h.mem a,
                  log := h.log ++ [HeapEvent.deleteArray p] }
  | some (Block.ints _) =>
    some { h with mem := fun a => if a = p then none else h.mem a,
                  log := h.log ++ [HeapEvent.deleteArray p] }
  | _ => none

/-- The type `struct FlagGroup` as it crosses the boundary: the addresses of the two
arrays and the count. -/
structure FlagGroupRef where
  names : Nat
  types : Nat
  size : Nat
  deriving DecidableEq, Repr

/-- The copying loop of `zig_luau_getflags` on the heap:
`for (size_t i = 0; i < size; ++i) { names[i] = strdup(names_list[i].c_str()); types[i] = types_list[i]; }`
with `names` and `types` the addresses of the two arrays. -/
def copyLoopHeap (names_list : List (List Byte)) (types_list : List Int) (size : Nat)
    (names types : Nat) (h : Heap) : Heap :=
  (List.range size).foldl
    (fun (hh : Heap) (i : Nat) =>
      ((hh.malloc (strdup (c_str (names_list.getD i [])))).2.storePtr names i
        (hh.malloc (strdup (c_str (names_list.getD i [])))).1).storeInt types i
        (types_list.getD i 0))
    h

/-- The function `FlagGroup zig_luau_getflags()` with its allocations: the two
collecting loops, `new const char *[size]`, `new int[size]`, the copying loop, and
the returned group. -/
def zig_luau_getflags_heap (s : Registry) (h : Heap) : FlagGroupRef × Heap :=
  let l0 : List (List Byte) × List Int := ([], [])
  let l1 := collectLoop 0 s.boolList l0
  let l2 := collectLoop 1 s.intList l1
  let names_list := l2.1
  let types_list := l2.2
  let size := names_list.length
  let names := h.newPtrs size
  let types := names.2.newInts size
  ({ names := names.1, types := types.1, size := size },
    copyLoopHeap names_list types_list size names.1 types.1 types.2)

/-- The function `void zig_luau_freeflags(FlagGroup group)`:
`for (size_t i = 0; i < group.size; i++) free((void *)group.names[i]);`
then `delete[] group.names; delete[] group.types;`. The result is `none` when a read
or a release faults. -/
def zig_luau_freeflags (group : FlagGroupRef) (h : Heap) : Option Heap :=
  ((List.range group.size).foldlM
      (fun (hh : Heap) (i : Nat) => (hh.loadPtr group.names i).bind (fun p => hh.free p))
      h).bind
    (fun h1 => (h1.deleteArray group.names).bind (fun h2 => h2.deleteArray group.types))

/-- The memory after `k` rounds of the copying loop over `base`: the array of
addresses at `a0` and the array of tags at `a0 + 1`, each filled up to `k`, and the
`k` name copies at `a0 + 2`, ..., `a0 + 1 + k`. -/
def snapMem (base : Nat → Option Block) (a0 n k : Nat) (L : List (List Byte))
    (T : List Int) : Nat → Option Block :=
  fun a =>
    if a = a0 then
      some (Block.ptrs ((List.range k).map (fun i => a0 + 2 + i) ++ List.replicate (n - k) 0))
    else if a = a0 + 1 then
      some (Block.ints (T.take k ++ List.replicate (n - k) 0))
    else if a0 + 2 ≤ a ∧ a < a0 + 2 + k then
      some (Block.chars (strdup (c_str (L.getD (a - (a0 + 2)) []))))
    else base a

/-! ## Lemmas on the scans -/

theorem setLoop_fst_iff {T : Type} (flagName : List Byte) (value : T) (l : List (FValue T)) :
    (setLoop flagName value l).1 = true ↔ HasName flagName l := by
  induction l with
  | nil => simp [setLoop, HasName]
  | cons a t ih =>
    by_cases h : flagName = cstr a.name
    · simp [setLoop, h, HasName]
    · have h2 : ¬ cstr a.name = flagName := fun e => h e.symm
      simp [setLoop, h, h2, ih, HasName]

theorem getLoop_fst_iff {T : Type} (flagName : List Byte) (slot : T) (l : List (FValue T)) :
    (getLoop flagName slot l).1 = true ↔ HasName flagName l := by
  induction l with
  | nil => simp [getLoop, HasName]
  | cons a t ih =>
    by_cases h : flagName = cstr a.name
    · simp [getLoop, h, HasName]
    · have h2 : ¬ cstr a.name = flagName := fun e => h e.symm
      simp [getLoop, h, h2, ih, HasName]

theorem setLoop_fst_eq_getLoop_fst {T : Type} (flagName : List Byte) (value slot : T)
    (l : List (FValue T)) :
    (setLoop flagName value l).1 = (getLoop flagName slot l).1 := by
  induction l with
  | nil => simp [setLoop, getLoop]
  | cons a t ih =>
    by_cases h : flagName = cstr a.name
    · simp [setLoop, getLoop, h]
    · simp [setLoop, getLoop, h, ih]

theorem setLoop_map_name {T : Type} (flagName : List Byte) (value : T) (l : List (FValue T)) :
    (setLoop flagName value l).2.map FValue.name = l.map FValue.name := by
  induction l with
  | nil => simp [setLoop]
  | cons a t ih =>
    by_cases h : flagName = cstr a.name
    · simp [setLoop, h]
    · simp [setLoop, h, ih]

theorem setLoop_not_found {T : Type} (flagName : List Byte) (value : T) (l : List (FValue T))
    (h : ¬ HasName flagName l) : setLoop flagName value l = (false, l) := by
  induction l with
  | nil => simp [setLoop]
  | cons a t ih =>
    have h1 : ¬ flagName = cstr a.name := fun e => h ⟨a, by simp, e.symm⟩
    have h2 : ¬ HasName flagName t := fun ⟨r, hr, e⟩ => h ⟨r, by simp [hr], e⟩
    simp [setLoop, h1, ih h2]

theorem getLoop_not_found {T : Type} (flagName : List Byte) (slot : T) (l : List (FValue T))
    (h : ¬ HasName flagName l) : getLoop flagName slot l = (false, slot) := by
  induction l with
  | nil => simp [getLoop]
  | cons a t ih =>
    have h1 : ¬ flagName = cstr a.name := fun e => h ⟨a, by simp, e.symm⟩
    have h2 : ¬ HasName flagName t := fun ⟨r, hr, e⟩ => h ⟨r, by simp [hr], e⟩
    simp [getLoop, h1, ih h2]

theorem getLoop_setLoop {T : Type} (flagName : List Byte) (value slot : T)
    (l : List (FValue T)) (h : HasName flagName l) :
    getLoop flagName slot (setLoop flagName value l).2 = (true, value) := by
  induction l with
  | nil => obtain ⟨r, hr, _⟩ := h; simp at hr
  | cons a t ih =>
    by_cases h1 : flagName = cstr a.name
    · simp [setLoop, getLoop, h1]
    · have h2 : HasName flagName t := by
        obtain ⟨r, hr, e⟩ := h
        rcases List.mem_cons.mp hr with rfl | hr
        · exact absurd e.symm h1
        · exact ⟨r, hr, e⟩
      simp [setLoop, getLoop, h1, ih h2]

theorem setLoop_setLoop {T : Type} (flagName : List Byte) (value : T) (l : List (FValue T)) :
    setLoop flagName value (setLoop flagName value l).2 = setLoop flagName value l := by
  induction l with
  | nil => simp [setLoop]
  | cons a t ih =>
    by_cases h : flagName = cstr a.name
    · simp [setLoop, h]
    · simp [setLoop, h, ih]

theorem setLoop_spec {T : Type} (flagName : List Byte) (value : T) (l : List (FValue T))
    (h : HasName flagName l) :
    ∃ j r, l[j]? = some r ∧ cstr r.name = flagName ∧
      (∀ k r', k < j → l[k]? = some r' → cstr r'.name ≠ flagName) ∧
      (setLoop flagName value l).2 = l.set j { r with value := value } := by
  induction l with
  | nil => obtain ⟨r, hr, _⟩ := h; simp at hr
  | cons a t ih =>
    by_cases h1 : flagName = cstr a.name
    · refine ⟨0, a, by simp, h1.symm, ?_, ?_⟩
      · intro k r' hk; omega
      · simp [setLoop, h1]
    · have h2 : HasName flagName t := by
        obtain ⟨r, hr, e⟩ := h
        rcases List.mem_cons.mp hr with rfl | hr
        · exact absurd e.symm h1
        · exact ⟨r, hr, e⟩
      obtain ⟨j, r, hj, hn, hfirst, hset⟩ := ih h2
      refine ⟨j + 1, r, by simpa using hj, hn, ?_, ?_⟩
      · intro k r' hk hkr
        cases k with
        | zero =>
          simp at hkr
          subst hkr
          exact fun e => h1 e.symm
        | succ k =>
          exact hfirst k r' (by omega) (by simpa using hkr)
      · simp [setLoop, h1, hset]

theorem getLoop_spec {T : Type} (flagName : List Byte) (slot : T) (l : List (FValue T))
    (h : HasName flagName l) :
    ∃ (j : Nat) (r : FValue T), l[j]? = some r ∧ cstr r.name = flagName ∧
      (∀ (k : Nat) (r' : FValue T), k < j → l[k]? = some r' → cstr r'.name ≠ flagName) ∧
      getLoop flagName slot l = (true, r.value) := by
  induction l with
  | nil => obtain ⟨r, hr, _⟩ := h; simp at hr
  | cons a t ih =>
    by_cases h1 : flagName = cstr a.name
    · refine ⟨0, a, by simp, h1.symm, ?_, ?_⟩
      · intro k r' hk; omega
      · simp [getLoop, h1]
    · have h2 : HasName flagName t := by
        obtain ⟨r, hr, e⟩ := h
        rcases List.mem_cons.mp hr with rfl | hr
        · exact absurd e.symm h1
        · exact ⟨r, hr, e⟩
      obtain ⟨j, r, hj, hn, hfirst, hget⟩ := ih h2
      refine ⟨j + 1, r, by simpa using hj, hn, ?_, ?_⟩
      · intro k r' hk hkr
        cases k with
        | zero =>
          simp at hkr
          subst hkr
          exact fun e => h1 e.symm
        | succ k =>
          exact hfirst k r' (by omega) (by simpa using hkr)
      · simp [getLoop, h1, hget]

/-! ## Lemmas on enumeration -/

theorem cstr_append_zero (p : List Byte) : cstr (cstr p ++ [0]) = cstr p := by
  induction p with
  | nil => simp [cstr]
  | cons c t ih =>
    by_cases h : c = 0
    · simp [cstr, h]
    · simp only [cstr] at ih ⊢
      simp only [List.takeWhile_cons, h, ne_eq, not_false_eq_true, decide_True, List.cons_append,
        ite_true]
      rw [ih]

theorem strdup_c_str_cstr (p : List Byte) : strdup (c_str (cstr p)) = cstr p ++ [0] := by
  simp [strdup, c_str, cstr_append_zero]

theorem collectLoop_eq {T : Type} (tag : Int) (l : List (FValue T))
    (acc : List (List Byte) × List Int) :
    collectLoop tag l acc =
      (acc.1 ++ l.map (fun r => cstr r.name), acc.2 ++ List.replicate l.length tag) := by
  induction l generalizing acc with
  | nil => simp [collectLoop]
  | cons a t ih =>
    simp [collectLoop, ih, List.replicate_succ]

theorem foldl_pair_set {α β : Type} (f : Nat → α) (g : Nat → β) (is : List Nat)
    (a : List α) (b : List β) :
    is.foldl (fun p i => (p.1.set i (f i), p.2.set i (g i))) (a, b) =
      (is.foldl (fun x i => x.set i (f i)) a, is.foldl (fun x i => x.set i (g i)) b) := by
  induction is generalizing a b with
  | nil => rfl
  | cons i t ih => simp [List.foldl_cons, ih]

theorem foldl_set_range {α : Type} (f : Nat → α) (n : Nat) (a : List α) (h : n ≤ a.length) :
    (List.range n).foldl (fun x i => x.set i (f i)) a = (List.range n).map f ++ a.drop n := by
  induction n with
  | zero => simp
  | succ n ih =>
    rw [List.range_succ, List.foldl_append, ih (by omega)]
    simp only [List.foldl_cons, List.foldl_nil, List.map_append, List.map_cons, List.map_nil,
      List.append_assoc, List.singleton_append]
    have hd : a.drop n = a[n] :: a.drop (n + 1) := List.drop_eq_getElem_cons (by omega)
    rw [List.set_append_right _ _ (by simp), hd]
    simp only [List.length_map, List.length_range, Nat.sub_self, List.set_cons_zero]

theorem map_range_getD {α β : Type} (g : α → β) (d : α) (l : List α) :
    (List.range l.length).map (fun i => g (l.getD i d)) = l.map g := by
  apply List.ext_getElem
  · simp
  · intro i h1 h2
    simp at h1
    simp [List.getD, h1]

theorem copyLoop_eq (names_list : List (List Byte)) (types_list : List Int)
    (h : types_list.length = names_list.length) :
    copyLoop names_list types_list names_list.length
        (List.replicate names_list.length [], List.replicate names_list.length 0) =
      (names_list.map (fun n => strdup (c_str n)), types_list) := by
  unfold copyLoop
  rw [foldl_pair_set (fun i => strdup (c_str (names_list.getD i [])))
    (fun i => types_list.getD i 0)]
  rw [foldl_set_range _ _ _ (by simp), foldl_set_range _ _ _ (by simp)]
  rw [map_range_getD (fun n => strdup (c_str n)) [] names_list]
  have h2 := map_range_getD (fun n => n) (0 : Int) types_list
  rw [h] at h2
  rw [h2]
  simp

theorem getflags_eq (s : Registry) :
    zig_luau_getflags s =
      ({ names := s.boolList.map (fun r => cstr r.name ++ [0]) ++
                  s.intList.map (fun r => cstr r.name ++ [0]),
         types := List.replicate s.boolList.length 0 ++ List.replicate s.intList.length 1,
         size := s.boolList.length + s.intList.length }, s) := by
  unfold zig_luau_getflags
  simp only [collectLoop_eq, List.nil_append]
  rw [copyLoop_eq _ _ (by simp)]
  simp [strdup_c_str_cstr, Function.comp_def]

theorem getflags_congr (s s' : Registry)
    (hb : s'.boolList.map FValue.name = s.boolList.map FValue.name)
    (hi : s'.intList.map FValue.name = s.intList.map FValue.name) :
    (zig_luau_getflags s').1 = (zig_luau_getflags s).1 := by
  have e1 : ∀ {T : Type} (l : List (FValue T)),
      l.map (fun r => cstr r.name ++ [0]) = (l.map FValue.name).map (fun n => cstr n ++ [0]) := by
    intro T l; simp
  have lb : s'.boolList.length = s.boolList.length := by
    simpa using congrArg List.length hb
  have li : s'.intList.length = s.intList.length := by
    simpa using congrArg List.length hi
  rw [getflags_eq, getflags_eq]
  simp only [e1, hb, hi, lb, li]

theorem setflag_bool_names (name : List Byte) (nameLen : Nat) (V : Bool) (s : Registry) :
    (zig_luau_setflag_bool name nameLen V s).2.boolList.map FValue.name =
        s.boolList.map FValue.name ∧
      (zig_luau_setflag_bool name nameLen V s).2.intList = s.intList := by
  simp [zig_luau_setflag_bool, setLoop_map_name]

theorem setflag_int_names (name : List Byte) (nameLen : Nat) (V : Int) (s : Registry) :
    (zig_luau_setflag_int name nameLen V s).2.intList.map FValue.name =
        s.intList.map FValue.name ∧
      (zig_luau_setflag_int name nameLen V s).2.boolList = s.boolList := by
  simp [zig_luau_setflag_int, setLoop_map_name]

theorem runCalls_names (calls : List SetCall) (s : Registry) :
    (runCalls calls s).boolList.map FValue.name = s.boolList.map FValue.name ∧
      (runCalls calls s).intList.map FValue.name = s.intList.map FValue.name := by
  induction calls generalizing s with
  | nil => simp [runCalls]
  | cons c cs ih =>
    cases c with
    | setBool name nameLen V =>
      have h := setflag_bool_names name nameLen V s
      simp only [runCalls, SetCall.run]
      rw [(ih _).1, (ih _).2, h.1, h.2]
      exact ⟨rfl, rfl⟩
    | setInt name nameLen V =>
      have h := setflag_int_names name nameLen V s
      simp only [runCalls, SetCall.run]
      rw [(ih _).1, (ih _).2, h.1, h.2]
      exact ⟨rfl, rfl⟩

/-! ## The flag registry bridge: main results -/

/-- C1: Set-then-Get round trip. For every registry state, every name (the first
`nameLen` bytes of the buffer) that is the name of some record of the boolean list
and every boolean `V`, `zig_luau_setflag_bool` returns true and a following
`zig_luau_getflag_bool` with the same name returns true and writes `V` to the output
slot, whatever the slot held; the same for the integer list with
`zig_luau_setflag_int` / `zig_luau_getflag_int` and every integer `V`. -/
theorem set_get_round_trip (s : Registry) (name : List Byte) (nameLen : Nat) :
    (HasName (mkString name nameLen) s.boolList → ∀ V slot : Bool,
      (zig_luau_setflag_bool name nameLen V s).1 = true ∧
      (zig_luau_getflag_bool name nameLen slot
        (zig_luau_setflag_bool name nameLen V s).2).1 = (true, V)) ∧
    (HasName (mkString name nameLen) s.intList → ∀ V slot : Int,
      (zig_luau_setflag_int name nameLen V s).1 = true ∧
      (zig_luau_getflag_int name nameLen slot
        (zig_luau_setflag_int name nameLen V s).2).1 = (true, V)) := by
  constructor
  · intro h V slot
    exact ⟨(setLoop_fst_iff _ V _).2 h, getLoop_setLoop _ V slot _ h⟩
  · intro h V slot
    exact ⟨(setLoop_fst_iff _ V _).2 h, getLoop_setLoop _ V slot _ h⟩

/-- Witness of C1 on the example registry: the name `x` given in a buffer with a
trailing byte beyond its declared length 1. -/
theorem set_get_round_trip_witness :
    HasName (mkString [120, 7] 1) exRegistry.boolList ∧
    HasName (mkString [120, 7] 1) exRegistry.intList ∧
    ((zig_luau_setflag_bool [120, 7] 1 true exRegistry).1 = true ∧
      (zig_luau_getflag_bool [120, 7] 1 false
        (zig_luau_setflag_bool [120, 7] 1 true exRegistry).2).1 = (true, true)) ∧
    ((zig_luau_setflag_int [120, 7] 1 5 exRegistry).1 = true ∧
      (zig_luau_getflag_int [120, 7] 1 0
        (zig_luau_setflag_int [120, 7] 1 5 exRegistry).2).1 = (true, 5)) :=
  ⟨by decide, by decide,
    (set_get_round_trip exRegistry [120, 7] 1).1 (by decide) true false,
    (set_get_round_trip exRegistry [120, 7] 1).2 (by decide) 5 0⟩

/-- C2: Not-found outcome. For every registry state and every name that is not the
name of any record of a type's list, the typed Get on that list returns false, the
typed Set on that list returns false for every value, and after the failed Set the
registry (every record of both lists, name and value) is the same as before. -/
theorem not_found_outcome (s : Registry) (name : List Byte) (nameLen : Nat) :
    (¬ HasName (mkString name nameLen) s.boolList →
      (∀ slot : Bool, (zig_luau_getflag_bool name nameLen slot s).1.1 = false) ∧
      (∀ V : Bool, (zig_luau_setflag_bool name nameLen V s).1 = false ∧
        (zig_luau_setflag_bool name nameLen V s).2 = s)) ∧
    (¬ HasName (mkString name nameLen) s.intList →
      (∀ slot : Int, (zig_luau_getflag_int name nameLen slot s).1.1 = false) ∧
      (∀ V : Int, (zig_luau_setflag_int name nameLen V s).1 = false ∧
        (zig_luau_setflag_int name nameLen V s).2 = s)) := by
  constructor
  · intro h
    refine ⟨fun slot => ?_, fun V => ?_⟩
    · simp [zig_luau_getflag_bool, getLoop_not_found _ slot _ h]
    · simp [zig_luau_setflag_bool, setLoop_not_found _ V _ h]
  · intro h
    refine ⟨fun slot => ?_, fun V => ?_⟩
    · simp [zig_luau_getflag_int, getLoop_not_found _ slot _ h]
    · simp [zig_luau_setflag_int, setLoop_not_found _ V _ h]

/-- Witness of C2 on the example registry: `z` is no boolean flag and `y` is no
integer flag. -/
theorem not_found_outcome_witness :
    (¬ HasName (mkString [122] 1) exRegistry.boolList) ∧
    (¬ HasName (mkString [121] 1) exRegistry.intList) ∧
    ((∀ slot : Bool, (zig_luau_getflag_bool [122] 1 slot exRegistry).1.1 = false) ∧
      (∀ V : Bool, (zig_luau_setflag_bool [122] 1 V exRegistry).1 = false ∧
        (zig_luau_setflag_bool [122] 1 V exRegistry).2 = exRegistry)) ∧
    ((∀ slot : Int, (zig_luau_getflag_int [121] 1 slot exRegistry).1.1 = false) ∧
      (∀ V : Int, (zig_luau_setflag_int [121] 1 V exRegistry).1 = false ∧
        (zig_luau_setflag_int [121] 1 V exRegistry).2 = exRegistry)) :=
  ⟨by decide, by decide,
    (not_found_outcome exRegistry [122] 1).1 (by decide),
    (not_found_outcome exRegistry [121] 1).2 (by decide)⟩

/-- C3: Enumerate shape. With `b` boolean and `i` integer records,
`zig_luau_getflags` returns a snapshot with `size = b + i` and both arrays of that
length; `types[k] = 0` for `k < b` and `types[k] = 1` for `b ≤ k < b + i`;
`names[k]` is a string equal to the name of the `k`-th boolean record for `k < b`
and to the name of the `(k - b)`-th integer record for `b ≤ k < b + i`. In
particular the empty registry yields size 0, and a name carried by a boolean record
and by an integer record appears twice, once with tag 0 and once with tag 1. -/
theorem enumerate_shape (s : Registry) :
    (zig_luau_getflags s).1.size = s.boolList.length + s.intList.length ∧
    (zig_luau_getflags s).1.names.length = (zig_luau_getflags s).1.size ∧
    (zig_luau_getflags s).1.types.length = (zig_luau_getflags s).1.size ∧
    (∀ k : Nat, k < s.boolList.length → (zig_luau_getflags s).1.types[k]? = some 0) ∧
    (∀ k : Nat, s.boolList.length ≤ k → k < s.boolList.length + s.intList.length →
      (zig_luau_getflags s).1.types[k]? = some 1) ∧
    (∀ (k : Nat) (r : FValue Bool), s.boolList[k]? = some r →
      ∃ p, (zig_luau_getflags s).1.names[k]? = some p ∧ cstr p = cstr r.name) ∧
    (∀ (k : Nat) (r : FValue Int), s.boolList.length ≤ k →
      s.intList[k - s.boolList.length]? = some r →
      ∃ p, (zig_luau_getflags s).1.names[k]? = some p ∧ cstr p = cstr r.name) ∧
    (zig_luau_getflags { boolList := [], intList := [] }).1.size = 0 ∧
    (∀ (kb ki : Nat) (rb : FValue Bool) (ri : FValue Int),
      s.boolList[kb]? = some rb → s.intList[ki]? = some ri → cstr rb.name = cstr ri.name →
      ∃ p q, (zig_luau_getflags s).1.names[kb]? = some p ∧
        (zig_luau_getflags s).1.names[s.boolList.length + ki]? = some q ∧
        cstr p = cstr rb.name ∧ cstr q = cstr rb.name ∧
        (zig_luau_getflags s).1.types[kb]? = some 0 ∧
        (zig_luau_getflags s).1.types[s.boolList.length + ki]? = some 1) := by
  have hb : ∀ (k : Nat) (r : FValue Bool), s.boolList[k]? = some r →
      (zig_luau_getflags s).1.names[k]? = some (cstr r.name ++ [0]) ∧
      (zig_luau_getflags s).1.types[k]? = some 0 := by
    intro k r hk
    have hlt : k < s.boolList.length := by
      rcases Nat.lt_or_ge k s.boolList.length with h | h
      · exact h
      · rw [List.getElem?_eq_none h] at hk; cases hk
    rw [getflags_eq]
    constructor
    · rw [List.getElem?_append_left (by simpa using hlt)]
      simp [hk]
    · rw [List.getElem?_append_left (by simpa using hlt)]
      simp [hlt]
  have hi : ∀ (k : Nat) (r : FValue Int), s.intList[k]? = some r →
      (zig_luau_getflags s).1.names[s.boolList.length + k]? = some (cstr r.name ++ [0]) ∧
      (zig_luau_getflags s).1.types[s.boolList.length + k]? = some 1 := by
    intro k r hk
    have hlt : k < s.intList.length := by
      rcases Nat.lt_or_ge k s.intList.length with h | h
      · exact h
      · rw [List.getElem?_eq_none h] at hk; cases hk
    rw [getflags_eq]
    constructor
    · rw [List.getElem?_append_right (by simp)]
      simp [hk]
    · rw [List.getElem?_append_right (by simp)]
      simp [hlt]
  refine ⟨by rw [getflags_eq], by rw [getflags_eq]; simp, by rw [getflags_eq]; simp,
    ?_, ?_, ?_, ?_, by rw [getflags_eq]; rfl, ?_⟩
  · intro k hk
    obtain ⟨r, hr⟩ : ∃ r, s.boolList[k]? = some r := ⟨s.boolList[k], by simp [hk]⟩
    exact (hb k r hr).2
  · intro k h1 h2
    have hlt : k - s.boolList.length < s.intList.length := by omega
    obtain ⟨r, hr⟩ : ∃ r, s.intList[k - s.boolList.length]? = some r :=
      ⟨s.intList[k - s.boolList.length], by simp [hlt]⟩
    have := (hi _ r hr).2
    rwa [Nat.add_sub_cancel' h1] at this
  · intro k r hk
    exact ⟨_, (hb k r hk).1, cstr_append_zero _⟩
  · intro k r h1 hk
    have := (hi _ r hk).1
    rw [Nat.add_sub_cancel' h1] at this
    exact ⟨_, this, cstr_append_zero _⟩
  · intro kb ki rb ri h1 h2 e
    refine ⟨_, _, (hb kb rb h1).1, (hi ki ri h2).1, cstr_append_zero _, ?_,
      (hb kb rb h1).2, (hi ki ri h2).2⟩
    rw [cstr_append_zero, e]

/-- Witness of C3 on the example registry (three boolean, two integer records; `x`
is in both lists). -/
theorem enumerate_shape_witness :
    (1 < exRegistry.boolList.length ∧ (zig_luau_getflags exRegistry).1.types[1]? = some 0) ∧
    (exRegistry.boolList.length ≤ 4 ∧ 4 < exRegistry.boolList.length + exRegistry.intList.length ∧
      (zig_luau_getflags exRegistry).1.types[4]? = some 1) ∧
    (∃ p, (zig_luau_getflags exRegistry).1.names[1]? = some p ∧ cstr p = [121]) ∧
    (∃ p, (zig_luau_getflags exRegistry).1.names[3]? = some p ∧ cstr p = [122]) ∧
    (∃ p q, (zig_luau_getflags exRegistry).1.names[0]? = some p ∧
        (zig_luau_getflags exRegistry).1.names[exRegistry.boolList.length + 1]? = some q ∧
        cstr p = [120] ∧ cstr q = [120] ∧
        (zig_luau_getflags exRegistry).1.types[0]? = some 0 ∧
        (zig_luau_getflags exRegistry).1.types[exRegistry.boolList.length + 1]? = some 1) :=
  ⟨⟨by decide, (enumerate_shape exRegistry).2.2.2.1 1 (by decide)⟩,
    ⟨by decide, by decide, (enumerate_shape exRegistry).2.2.2.2.1 4 (by decide) (by decide)⟩,
    (enumerate_shape exRegistry).2.2.2.2.2.1 1 { value := false, name := [121, 0] } (by decide),
    (enumerate_shape exRegistry).2.2.2.2.2.2.1 3 { value := 10, name := [122, 0] }
      (by decide) (by decide),
    (enumerate_shape exRegistry).2.2.2.2.2.2.2.2 0 1 { value := false, name := [120, 0] }
      { value := 0, name := [120, 0] } (by decide) (by decide) (by decide)⟩

/-- C4: a successful Set changes exactly one value. Whenever the typed Set returns
true, there is a position `j` holding the first record (in traversal order) of that
type's list whose name equals the given name; afterwards the record at `j` is that
record with value `V`, the list has the same length, every record at another
position (a later record of the same name included) is the record that was there
before, and the other type's list is the list it was before. -/
theorem set_changes_exactly_one (s : Registry) (name : List Byte) (nameLen : Nat) :
    (∀ V : Bool, (zig_luau_setflag_bool name nameLen V s).1 = true →
      ∃ (j : Nat) (r : FValue Bool), s.boolList[j]? = some r ∧
        cstr r.name = mkString name nameLen ∧
        (∀ (k : Nat) (r' : FValue Bool), k < j → s.boolList[k]? = some r' →
          cstr r'.name ≠ mkString name nameLen) ∧
        (zig_luau_setflag_bool name nameLen V s).2.boolList[j]? =
          some { r with value := V } ∧
        (zig_luau_setflag_bool name nameLen V s).2.boolList.length = s.boolList.length ∧
        (∀ k : Nat, k ≠ j →
          (zig_luau_setflag_bool name nameLen V s).2.boolList[k]? = s.boolList[k]?) ∧
        (zig_luau_setflag_bool name nameLen V s).2.intList = s.intList) ∧
    (∀ V : Int, (zig_luau_setflag_int name nameLen V s).1 = true →
      ∃ (j : Nat) (r : FValue Int), s.intList[j]? = some r ∧
        cstr r.name = mkString name nameLen ∧
        (∀ (k : Nat) (r' : FValue Int), k < j → s.intList[k]? = some r' →
          cstr r'.name ≠ mkString name nameLen) ∧
        (zig_luau_setflag_int name nameLen V s).2.intList[j]? =
          some { r with value := V } ∧
        (zig_luau_setflag_int name nameLen V s).2.intList.length = s.intList.length ∧
        (∀ k : Nat, k ≠ j →
          (zig_luau_setflag_int name nameLen V s).2.intList[k]? = s.intList[k]?) ∧
        (zig_luau_setflag_int name nameLen V s).2.boolList = s.boolList) := by
  constructor
  · intro V h
    have hn : HasName (mkString name nameLen) s.boolList := (setLoop_fst_iff _ V _).1 h
    obtain ⟨j, r, hj, hname, hfirst, hset⟩ := setLoop_spec _ V _ hn
    have hlt : j < s.boolList.length := by
      rcases Nat.lt_or_ge j s.boolList.length with h | h
      · exact h
      · rw [List.getElem?_eq_none h] at hj; cases hj
    refine ⟨j, r, hj, hname, hfirst, ?_, ?_, ?_, rfl⟩
    · simp [zig_luau_setflag_bool, hset, List.getElem?_set, hlt]
    · simp [zig_luau_setflag_bool, hset]
    · intro k hk
      have : ¬ j = k := fun e => hk e.symm
      simp [zig_luau_setflag_bool, hset, List.getElem?_set, this]
  · intro V h
    have hn : HasName (mkString name nameLen) s.intList := (setLoop_fst_iff _ V _).1 h
    obtain ⟨j, r, hj, hname, hfirst, hset⟩ := setLoop_spec _ V _ hn
    have hlt : j < s.intList.length := by
      rcases Nat.lt_or_ge j s.intList.length with h | h
      · exact h
      · rw [List.getElem?_eq_none h] at hj; cases hj
    refine ⟨j, r, hj, hname, hfirst, ?_, ?_, ?_, rfl⟩
    · simp [zig_luau_setflag_int, hset, List.getElem?_set, hlt]
    · simp [zig_luau_setflag_int, hset]
    · intro k hk
      have : ¬ j = k := fun e => hk e.symm
      simp [zig_luau_setflag_int, hset, List.getElem?_set, this]

/-- Witness of C4 on the example registry, where the boolean list holds `x` twice:
the second `x` keeps its value. -/
theorem set_changes_exactly_one_witness :
    (zig_luau_setflag_bool [120] 1 true exRegistry).1 = true ∧
    (zig_luau_setflag_int [120] 1 5 exRegistry).1 = true ∧
    (∃ (j : Nat) (r : FValue Bool), exRegistry.boolList[j]? = some r ∧
        cstr r.name = mkString [120] 1 ∧
        (∀ (k : Nat) (r' : FValue Bool), k < j → exRegistry.boolList[k]? = some r' →
          cstr r'.name ≠ mkString [120] 1) ∧
        (zig_luau_setflag_bool [120] 1 true exRegistry).2.boolList[j]? =
          some { r with value := true } ∧
        (zig_luau_setflag_bool [120] 1 true exRegistry).2.boolList.length =
          exRegistry.boolList.length ∧
        (∀ k : Nat, k ≠ j →
          (zig_luau_setflag_bool [120] 1 true exRegistry).2.boolList[k]? =
            exRegistry.boolList[k]?) ∧
        (zig_luau_setflag_bool [120] 1 true exRegistry).2.intList = exRegistry.intList) ∧
    (∃ (j : Nat) (r : FValue Int), exRegistry.intList[j]? = some r ∧
        cstr r.name = mkString [120] 1 ∧
        (∀ (k : Nat) (r' : FValue Int), k < j → exRegistry.intList[k]? = some r' →
          cstr r'.name ≠ mkString [120] 1) ∧
        (zig_luau_setflag_int [120] 1 5 exRegistry).2.intList[j]? =
          some { r with value := 5 } ∧
        (zig_luau_setflag_int [120] 1 5 exRegistry).2.intList.length =
          exRegistry.intList.length ∧
        (∀ k : Nat, k ≠ j →
          (zig_luau_setflag_int [120] 1 5 exRegistry).2.intList[k]? =
            exRegistry.intList[k]?) ∧
        (zig_luau_setflag_int [120] 1 5 exRegistry).2.boolList = exRegistry.boolList) :=
  ⟨by decide, by decide,
    (set_changes_exactly_one exRegistry [120] 1).1 true (by decide),
    (set_changes_exactly_one exRegistry [120] 1).2 5 (by decide)⟩

/-- C5: the two lists are independent namespaces. When a boolean record and an
integer record share the name `x`, after `zig_luau_setflag_bool(x, B)` followed by
`zig_luau_setflag_int(x, I)`, `zig_luau_getflag_bool(x)` yields `(true, B)` and
`zig_luau_getflag_int(x)` yields `(true, I)`, for every `B` and `I`. More generally,
for arbitrary names and output slots, a boolean Set never changes the result of an
integer Get and an integer Set never changes the result of a boolean Get. -/
theorem independent_namespaces (s : Registry) (x : List Byte) (xLen : Nat) :
    (HasName (mkString x xLen) s.boolList → HasName (mkString x xLen) s.intList →
      ∀ (B : Bool) (I : Int) (slotB : Bool) (slotI : Int),
        (zig_luau_getflag_bool x xLen slotB
          (zig_luau_setflag_int x xLen I (zig_luau_setflag_bool x xLen B s).2).2).1
            = (true, B) ∧
        (zig_luau_getflag_int x xLen slotI
          (zig_luau_setflag_int x xLen I (zig_luau_setflag_bool x xLen B s).2).2).1
            = (true, I)) ∧
    (∀ (n : List Byte) (nLen : Nat) (V : Bool) (slot : Int),
      (zig_luau_getflag_int n nLen slot (zig_luau_setflag_bool x xLen V s).2).1 =
        (zig_luau_getflag_int n nLen slot s).1) ∧
    (∀ (n : List Byte) (nLen : Nat) (V : Int) (slot : Bool),
      (zig_luau_getflag_bool n nLen slot (zig_luau_setflag_int x xLen V s).2).1 =
        (zig_luau_getflag_bool n nLen slot s).1) := by
  refine ⟨?_, ?_, ?_⟩
  · intro hb hi B I slotB slotI
    constructor
    · exact getLoop_setLoop _ B slotB _ hb
    · exact getLoop_setLoop _ I slotI _ hi
  · intro n nLen V slot
    rfl
  · intro n nLen V slot
    rfl

/-- Witness of C5 on the example registry with `B = true`, `I = 5`. -/
theorem independent_namespaces_witness :
    HasName (mkString [120] 1) exRegistry.boolList ∧
    HasName (mkString [120] 1) exRegistry.intList ∧
    (zig_luau_getflag_bool [120] 1 false
      (zig_luau_setflag_int [120] 1 5 (zig_luau_setflag_bool [120] 1 true exRegistry).2).2).1
        = (true, true) ∧
    (zig_luau_getflag_int [120] 1 0
      (zig_luau_setflag_int [120] 1 5 (zig_luau_setflag_bool [120] 1 true exRegistry).2).2).1
        = (true, 5) :=
  ⟨by decide, by decide,
    (independent_namespaces exRegistry [120] 1).1 (by decide) (by decide) true 5 false 0⟩

/-- C6: Set is idempotent. For every registry state, name and value (registered or
not, names unique or not), the second of two identical typed Set calls in a row
returns what the first returned and leaves the registry the first one left. -/
theorem set_idempotent (s : Registry) (name : List Byte) (nameLen : Nat) :
    (∀ V : Bool,
      zig_luau_setflag_bool name nameLen V (zig_luau_setflag_bool name nameLen V s).2 =
        zig_luau_setflag_bool name nameLen V s) ∧
    (∀ V : Int,
      zig_luau_setflag_int name nameLen V (zig_luau_setflag_int name nameLen V s).2 =
        zig_luau_setflag_int name nameLen V s) := by
  constructor
  · intro V
    simp [zig_luau_setflag_bool, setLoop_setLoop]
  · intro V
    simp [zig_luau_setflag_int, setLoop_setLoop]

/-- C7: first-match lookup. For every registry state, with or without per-type
unique names, the typed Get returns true if and only if some record of that type's
list has the given name; when it returns true the value written to the output slot
is the value of the earliest such record in traversal order; and the typed Set
returns true for exactly the names for which the typed Get does. -/
theorem first_match_lookup (s : Registry) (name : List Byte) (nameLen : Nat) :
    (∀ slot : Bool,
      ((zig_luau_getflag_bool name nameLen slot s).1.1 = true ↔
        HasName (mkString name nameLen) s.boolList) ∧
      ((zig_luau_getflag_bool name nameLen slot s).1.1 = true →
        ∃ (j : Nat) (r : FValue Bool), s.boolList[j]? = some r ∧
          cstr r.name = mkString name nameLen ∧
          (∀ (k : Nat) (r' : FValue Bool), k < j → s.boolList[k]? = some r' →
            cstr r'.name ≠ mkString name nameLen) ∧
          (zig_luau_getflag_bool name nameLen slot s).1.2 = r.value) ∧
      (∀ V : Bool, (zig_luau_setflag_bool name nameLen V s).1 =
        (zig_luau_getflag_bool name nameLen slot s).1.1)) ∧
    (∀ slot : Int,
      ((zig_luau_getflag_int name nameLen slot s).1.1 = true ↔
        HasName (mkString name nameLen) s.intList) ∧
      ((zig_luau_getflag_int name nameLen slot s).1.1 = true →
        ∃ (j : Nat) (r : FValue Int), s.intList[j]? = some r ∧
          cstr r.name = mkString name nameLen ∧
          (∀ (k : Nat) (r' : FValue Int), k < j → s.intList[k]? = some r' →
            cstr r'.name ≠ mkString name nameLen) ∧
          (zig_luau_getflag_int name nameLen slot s).1.2 = r.value) ∧
      (∀ V : Int, (zig_luau_setflag_int name nameLen V s).1 =
        (zig_luau_getflag_int name nameLen slot s).1.1)) := by
  constructor
  · intro slot
    refine ⟨getLoop_fst_iff _ slot _, ?_, fun V => setLoop_fst_eq_getLoop_fst _ V slot _⟩
    intro h
    obtain ⟨j, r, hj, hname, hfirst, hget⟩ :=
      getLoop_spec _ slot _ ((getLoop_fst_iff _ slot _).1 h)
    exact ⟨j, r, hj, hname, hfirst, by simp [zig_luau_getflag_bool, hget]⟩
  · intro slot
    refine ⟨getLoop_fst_iff _ slot _, ?_, fun V => setLoop_fst_eq_getLoop_fst _ V slot _⟩
    intro h
    obtain ⟨j, r, hj, hname, hfirst, hget⟩ :=
      getLoop_spec _ slot _ ((getLoop_fst_iff _ slot _).1 h)
    exact ⟨j, r, hj, hname, hfirst, by simp [zig_luau_getflag_int, hget]⟩

/-- Witness of C7 on a registry whose lists repeat the name `x`. -/
theorem first_match_lookup_witness :
    (zig_luau_getflag_bool [120] 1 false exDuplicates).1.1 = true ∧
    (zig_luau_getflag_int [120] 1 0 exDuplicates).1.1 = true ∧
    (∃ (j : Nat) (r : FValue Bool), exDuplicates.boolList[j]? = some r ∧
          cstr r.name = mkString [120] 1 ∧
          (∀ (k : Nat) (r' : FValue Bool), k < j → exDuplicates.boolList[k]? = some r' →
            cstr r'.name ≠ mkString [120] 1) ∧
          (zig_luau_getflag_bool [120] 1 false exDuplicates).1.2 = r.value) ∧
    (∃ (j : Nat) (r : FValue Int), exDuplicates.intList[j]? = some r ∧
          cstr r.name = mkString [120] 1 ∧
          (∀ (k : Nat) (r' : FValue Int), k < j → exDuplicates.intList[k]? = some r' →
            cstr r'.name ≠ mkString [120] 1) ∧
          (zig_luau_getflag_int [120] 1 0 exDuplicates).1.2 = r.value) :=
  ⟨by decide, by decide,
    ((first_match_lookup exDuplicates [120] 1).1 false).2.1 (by decide),
    ((first_match_lookup exDuplicates [120] 1).2 0).2.1 (by decide)⟩

/-- C8: the bridge never changes the registry's structure. For each of
`zig_luau_setflag_bool`, `zig_luau_setflag_int`, `zig_luau_getflag_bool`,
`zig_luau_getflag_int` and `zig_luau_getflags`, and every input, the sequence of
record names of the boolean list and of the integer list (length, names, order) is
the same after the call as before it; the two getters and `zig_luau_getflags`
moreover leave the whole registry, values included, as it was. -/
theorem structure_preserved (s : Registry) (name : List Byte) (nameLen : Nat) :
    (∀ V : Bool,
      (zig_luau_setflag_bool name nameLen V s).2.boolList.map FValue.name =
        s.boolList.map FValue.name ∧
      (zig_luau_setflag_bool name nameLen V s).2.intList.map FValue.name =
        s.intList.map FValue.name ∧
      (zig_luau_setflag_bool name nameLen V s).2.boolList.length = s.boolList.length) ∧
    (∀ V : Int,
      (zig_luau_setflag_int name nameLen V s).2.boolList.map FValue.name =
        s.boolList.map FValue.name ∧
      (zig_luau_setflag_int name nameLen V s).2.intList.map FValue.name =
        s.intList.map FValue.name ∧
      (zig_luau_setflag_int name nameLen V s).2.intList.length = s.intList.length) ∧
    (∀ slot : Bool, (zig_luau_getflag_bool name nameLen slot s).2 = s) ∧
    (∀ slot : Int, (zig_luau_getflag_int name nameLen slot s).2 = s) ∧
    (zig_luau_getflags s).2 = s := by
  refine ⟨fun V => ?_, fun V => ?_, fun _ => rfl, fun _ => rfl, rfl⟩
  · have h := setflag_bool_names name nameLen V s
    refine ⟨h.1, by rw [h.2], ?_⟩
    simpa using congrArg List.length h.1
  · have h := setflag_int_names name nameLen V s
    refine ⟨by rw [h.2], h.1, ?_⟩
    simpa using congrArg List.length h.1

/-- C9: snapshots capture names and tags only, never values. For every registry
state and every sequence of typed Set calls, successful or not,
`zig_luau_getflags` after the sequence returns the same snapshot (size, names and
type tags, in order) as `zig_luau_getflags` before it; in particular a second
`zig_luau_getflags` right after a first returns an equal snapshot. -/
theorem snapshot_ignores_values (s : Registry) (calls : List SetCall) :
    (zig_luau_getflags (runCalls calls s)).1 = (zig_luau_getflags s).1 ∧
    (zig_luau_getflags (zig_luau_getflags s).2).1 = (zig_luau_getflags s).1 := by
  constructor
  · exact getflags_congr s _ (runCalls_names calls s).1 (runCalls_names calls s).2
  · rfl

/-! ## The boundary exception bridge: lemmas and main results -/

theorem runSteps_raising {ε σ : Type} (tag : Nat → Event ε) (pre : List (σ → σ)) (E : ε)
    (post : List (Step ε σ)) (k : Nat) (w : World ε σ) :
    runSteps tag (pre.map Step.act ++ Step.throw E :: post) k w =
      .raised E { host := pre.foldl (fun h f => f h) w.host,
                  trace := w.trace ++ (List.range' k (pre.length + 1)).map tag } := by
  induction pre generalizing k w with
  | nil => simp [runSteps, zig_luau_throw_js, hostThrow]
  | cons f t ih =>
    have h := ih (k + 1) { host := f w.host, trace := w.trace ++ [tag k] }
    simp [runSteps, h, List.range'_succ]

theorem runSteps_trace {ε σ : Type} (tag : Nat → Event ε) (steps : List (Step ε σ)) (k : Nat)
    (w : World ε σ) :
    ∃ evs : List (Event ε), (runSteps tag steps k w).world.trace = w.trace ++ evs ∧
      ∀ ev ∈ evs, ∃ j, ev = tag j := by
  induction steps generalizing k w with
  | nil => exact ⟨[], by simp [runSteps, Outcome.world], by simp⟩
  | cons st rest ih =>
    cases st with
    | act f =>
      obtain ⟨evs, h1, h2⟩ := ih (k + 1) { host := f w.host, trace := w.trace ++ [tag k] }
      refine ⟨tag k :: evs, by simp [runSteps, h1], ?_⟩
      intro ev hev
      rcases List.mem_cons.mp hev with rfl | hev
      · exact ⟨k, rfl⟩
      · exact h2 ev hev
    | throw e =>
      refine ⟨[tag k], by simp [runSteps, zig_luau_throw_js, hostThrow, Outcome.world], ?_⟩
      intro ev hev
      exact ⟨k, by simpa using hev⟩

theorem filter_handler_steps {ε : Type} (l l' : Nat) (evs : List (Event ε))
    (hevs : ∀ ev ∈ evs, ∃ j, ev = Event.stepWith l' j) :
    evs.filter Event.isCallWith = [] ∧ evs.filter (Event.isStepOf l) = [] := by
  constructor
  · apply List.filter_eq_nil_iff.2
    intro ev hev
    obtain ⟨j, rfl⟩ := hevs ev hev
    simp [Event.isCallWith]
  · apply List.filter_eq_nil_iff.2
    intro ev hev
    obtain ⟨j, rfl⟩ := hevs ev hev
    simp [Event.isStepOf]

theorem filter_trying_steps {ε : Type} (l : Nat) (ks : List Nat) :
    (ks.map (Event.step l : Nat → Event ε)).filter (Event.isStepOf l) = ks.map (Event.step l) ∧
    (ks.map (Event.step l : Nat → Event ε)).filter Event.isCallWith = [] := by
  constructor
  · apply List.filter_eq_self.2
    intro ev hev
    obtain ⟨j, _, rfl⟩ := List.mem_map.1 hev
    simp [Event.isStepOf]
  · apply List.filter_eq_nil_iff.2
    intro ev hev
    obtain ⟨j, _, rfl⟩ := List.mem_map.1 hev
    simp [Event.isCallWith]

/-- C10: boundary bridge, error path. Let the protected operation perform the
actions `pre`, raise `E`, and have further steps `post`, and let the handler be any
error-taking function object. With the host trampoline that calls
`zig_luau_try_impl` on the context and, when an error raised inside is intercepted,
calls `zig_luau_catch_impl` on the same context with that error,
`zig_luau_try_catch_js` extends the trace by events among which the handler
invocations are exactly one, that of the given handler with `E`; the executed steps
of the protected operation are exactly those up to and including the raise, so no
step after the raise is executed; and the call ends as the handler called with `E`
ends in the world reached at the raise. -/
theorem bridge_error_path {ε σ : Type} (l : Nat) (pre : List (σ → σ)) (E : ε)
    (post : List (Step ε σ)) (catching : Handler ε σ) (w : World ε σ) :
    ∃ new : List (Event ε),
      (zig_luau_try_catch_js hostTryCatch (raisingFn l pre E post) catching w).world.trace =
        w.trace ++ new ∧
      new.filter Event.isCallWith = [Event.callWith catching.label E] ∧
      new.filter (Event.isStepOf l) = (List.range (pre.length + 1)).map (Event.step l) ∧
      (∀ k : Nat, pre.length < k → Event.step l k ∉ new) ∧
      zig_luau_try_catch_js hostTryCatch (raisingFn l pre E post) catching w =
        zig_luau_catch_impl { trying := raisingFn l pre E post, catching := catching } E
          { host := pre.foldl (fun h f => f h) w.host,
            trace := w.trace ++
              Event.call l :: (List.range (pre.length + 1)).map (Event.step l) } := by
  have hrun : zig_luau_try_catch_js hostTryCatch (raisingFn l pre E post) catching w =
      zig_luau_catch_impl { trying := raisingFn l pre E post, catching := catching } E
        { host := pre.foldl (fun h f => f h) w.host,
          trace := w.trace ++
            Event.call l :: (List.range (pre.length + 1)).map (Event.step l) } := by
    simp [zig_luau_try_catch_js, hostTryCatch, zig_luau_try_impl, Fn.invoke, raisingFn,
      runSteps_raising, List.range_eq_range']
  obtain ⟨evs, htr, hevs⟩ := runSteps_trace (Event.stepWith catching.label)
    (catching.steps E) 0
    { host := pre.foldl (fun h f => f h) w.host,
      trace := (w.trace ++
        Event.call l :: (List.range (pre.length + 1)).map (Event.step l)) ++
        [Event.callWith catching.label E] }
  have h1 := filter_handler_steps l catching.label evs hevs
  have h2 := filter_trying_steps (ε := ε) l (List.range (pre.length + 1))
  have hfil : (Event.call l :: (List.range (pre.length + 1)).map (Event.step l) ++
        Event.callWith catching.label E :: evs).filter (Event.isStepOf l) =
      (List.range (pre.length + 1)).map (Event.step l) := by
    simp [List.filter_cons, Event.isStepOf, h1.2, h2.1]
  refine ⟨Event.call l :: (List.range (pre.length + 1)).map (Event.step l) ++
      Event.callWith catching.label E :: evs, ?_, ?_, hfil, ?_, hrun⟩
  · rw [hrun]
    simp only [zig_luau_catch_impl, Handler.invoke]
    rw [htr]
    simp
  · simp [List.filter_cons, Event.isCallWith, h1.1, h2.2]
  · intro k hk hmem
    have : Event.step l k ∈ (Event.call l :: (List.range (pre.length + 1)).map (Event.step l) ++
        Event.callWith catching.label E :: evs).filter (Event.isStepOf l) := by
      apply List.mem_filter.2
      exact ⟨hmem, by simp [Event.isStepOf]⟩
    rw [hfil] at this
    obtain ⟨j, hj, e⟩ := List.mem_map.1 this
    have hjk : j = k := by injection e
    have := List.mem_range.1 hj
    omega

/-- Witness of C10: the protected operation labelled 0 adds 1 to the host state,
raises 42 and would then multiply by 100; the handler, which carries the same label,
adds the error it is given. The host state ends at 43. -/
theorem bridge_error_path_witness :
    [fun h : Nat => h + 1].length < 2 ∧
    (zig_luau_try_catch_js hostTryCatch
      (raisingFn 0 [fun h => h + 1] 42 [Step.act (fun h => h * 100)]) exCatching
      { host := 0, trace := [] }).world.host = 43 ∧
    ∃ new : List (Event Nat),
      (zig_luau_try_catch_js hostTryCatch
        (raisingFn 0 [fun h => h + 1] 42 [Step.act (fun h => h * 100)]) exCatching
        { host := 0, trace := [] }).world.trace = [] ++ new ∧
      new.filter Event.isCallWith = [Event.callWith exCatching.label 42] ∧
      new.filter (Event.isStepOf 0) = (List.range (1 + 1)).map (Event.step 0) ∧
      Event.step 0 2 ∉ new := by
  refine ⟨by decide, rfl, ?_⟩
  obtain ⟨new, h1, h2, h3, h4, _⟩ :=
    bridge_error_path 0 [fun h : Nat => h + 1] 42 [Step.act (fun h => h * 100)] exCatching
      { host := 0, trace := [] }
  exact ⟨new, h1, h2, h3, h4 2 (by decide)⟩

theorem runSteps_completing {ε σ : Type} (tag : Nat → Event ε) (acts : List (σ → σ))
    (k : Nat) (w : World ε σ) :
    runSteps tag (acts.map (Step.act : (σ → σ) → Step ε σ)) k w =
      .returned { host := acts.foldl (fun h f => f h) w.host,
                  trace := w.trace ++ (List.range' k acts.length).map tag } := by
  induction acts generalizing k w with
  | nil => simp [runSteps]
  | cons f t ih =>
    have h := ih (k + 1) { host := f w.host, trace := w.trace ++ [tag k] }
    simp [runSteps, h, List.range'_succ]

theorem filter_calls_of_steps {ε : Type} (tag : Nat → Event ε) (evs : List (Event ε))
    (htag : ∀ j, (tag j).isCall = false ∧ (tag j).isCallWith = false)
    (hevs : ∀ ev ∈ evs, ∃ j, ev = tag j) :
    evs.filter Event.isCall = [] ∧ evs.filter Event.isCallWith = [] := by
  constructor
  · apply List.filter_eq_nil_iff.2
    intro ev hev
    obtain ⟨j, rfl⟩ := hevs ev hev
    simp [(htag j).1]
  · apply List.filter_eq_nil_iff.2
    intro ev hev
    obtain ⟨j, rfl⟩ := hevs ev hev
    simp [(htag j).2]

/-- C11: boundary bridge, normal path. Let the protected operation perform the
actions `acts` without raising, and let the handler be any error-taking function
object. With the host trampoline that calls `zig_luau_try_impl` on the context and
calls `zig_luau_catch_impl` only when an error was raised,
`zig_luau_try_catch_js` returns normally, in the world where the host state went
through all the actions once, in order; the events it adds hold exactly one
invocation of a `std::function<void()>`, that of the protected operation, each of
its steps once, and no invocation of a handler. -/
theorem bridge_normal_path {ε σ : Type} (l : Nat) (acts : List (σ → σ))
    (catching : Handler ε σ) (w : World ε σ) :
    ∃ new : List (Event ε),
      zig_luau_try_catch_js hostTryCatch (completingFn l acts) catching w =
        .returned { host := acts.foldl (fun h f => f h) w.host, trace := w.trace ++ new } ∧
      new = Event.call l :: (List.range acts.length).map (Event.step l) ∧
      new.filter Event.isCall = [Event.call l] ∧
      new.filter Event.isCallWith = [] := by
  have htag : ∀ j, (Event.step l j : Event ε).isCall = false ∧
      (Event.step l j : Event ε).isCallWith = false := fun j => ⟨rfl, rfl⟩
  have hf := filter_calls_of_steps (Event.step l : Nat → Event ε)
    ((List.range acts.length).map (Event.step l)) htag
    (fun ev hev => by
      obtain ⟨j, _, rfl⟩ := List.mem_map.1 hev
      exact ⟨j, rfl⟩)
  refine ⟨Event.call l :: (List.range acts.length).map (Event.step l), ?_, rfl, ?_, ?_⟩
  · simp [zig_luau_try_catch_js, hostTryCatch, zig_luau_try_impl, Fn.invoke, completingFn,
      runSteps_completing, List.range_eq_range']
  · simp [List.filter_cons, Event.isCall, hf.1]
  · simp [List.filter_cons, Event.isCallWith, hf.2]

/-- C14: the two callback entry points are unconditional relays. For every context
built from `trying` and `catching`: `zig_luau_try_impl` is the call of `trying`, and
the events it adds hold exactly one invocation of a `std::function<void()>`, that of
`trying`, and no handler invocation; `zig_luau_catch_impl` with `e` is the call of
`catching` with `e`, and the events it adds hold exactly one handler invocation,
that of `catching` with `e`, and no invocation of a `std::function<void()>`; and
`zig_luau_try_catch_js`, for every trampoline, is one call of the trampoline on the
context whose operations are the `trying` and `catching` it received. -/
theorem callbacks_are_relays {ε σ : Type} (trying : Fn ε σ) (catching : Handler ε σ)
    (w : World ε σ) :
    (zig_luau_try_impl { trying := trying, catching := catching } w = trying.invoke w ∧
      ∃ new : List (Event ε),
        (zig_luau_try_impl { trying := trying, catching := catching } w).world.trace =
          w.trace ++ new ∧
        new.filter Event.isCall = [Event.call trying.label] ∧
        new.filter Event.isCallWith = []) ∧
    (∀ e : ε,
      zig_luau_catch_impl { trying := trying, catching := catching } e w =
        catching.invoke e w ∧
      ∃ new : List (Event ε),
        (zig_luau_catch_impl { trying := trying, catching := catching } e w).world.trace =
          w.trace ++ new ∧
        new.filter Event.isCallWith = [Event.callWith catching.label e] ∧
        new.filter Event.isCall = []) ∧
    (∀ zig_luau_try_catch_js_impl : TryCatchContext ε σ → Call ε σ,
      zig_luau_try_catch_js zig_luau_try_catch_js_impl trying catching w =
        zig_luau_try_catch_js_impl { trying := trying, catching := catching } w) := by
  refine ⟨⟨rfl, ?_⟩, fun e => ⟨rfl, ?_⟩, fun _ => rfl⟩
  · obtain ⟨evs, htr, hevs⟩ := runSteps_trace (Event.step trying.label) trying.steps 0
      { w with trace := w.trace ++ [Event.call trying.label] }
    have hf := filter_calls_of_steps (Event.step trying.label : Nat → Event ε) evs
      (fun j => ⟨rfl, rfl⟩) hevs
    refine ⟨Event.call trying.label :: evs, ?_, ?_, ?_⟩
    · simp only [zig_luau_try_impl, Fn.invoke]
      rw [htr]
      simp
    · simp [List.filter_cons, Event.isCall, hf.1]
    · simp [List.filter_cons, Event.isCallWith, hf.2]
  · obtain ⟨evs, htr, hevs⟩ := runSteps_trace (Event.stepWith catching.label)
      (catching.steps e) 0 { w with trace := w.trace ++ [Event.callWith catching.label e] }
    have hf := filter_calls_of_steps (Event.stepWith catching.label : Nat → Event ε) evs
      (fun j => ⟨rfl, rfl⟩) hevs
    refine ⟨Event.callWith catching.label e :: evs, ?_, ?_, ?_⟩
    · simp only [zig_luau_catch_impl, Handler.invoke]
      rw [htr]
      simp
    · simp [List.filter_cons, Event.isCallWith, hf.2]
    · simp [List.filter_cons, Event.isCall, hf.1]

/-! ## Names: declared length, terminators, failed lookups -/

theorem zero_not_mem_cstr (p : List Byte) : (0 : Byte) ∉ cstr p := by
  intro h
  have := List.mem_takeWhile_imp h
  simp at this

theorem specNameMatches_iff {T : Type} (name : List Byte) (nameLen : Nat)
    (hlen : nameLen ≤ name.length) (r : FValue T) :
    mkString name nameLen = cstr r.name ↔ SpecNameMatches name nameLen r := by
  unfold mkString SpecNameMatches
  constructor
  · intro h
    rw [← h]
    refine ⟨by simp [List.length_take]; omega, ?_⟩
    intro i hi
    simp [List.getElem?_take, hi]
  · rintro ⟨h1, h2⟩
    apply List.ext_getElem?
    intro i
    by_cases hi : i < nameLen
    · rw [h2 i hi]
      simp [List.getElem?_take, hi]
    · have e1 : (List.take nameLen name)[i]? = none := by
        apply List.getElem?_eq_none
        simp [List.length_take]; omega
      have e2 : (cstr r.name)[i]? = none := by
        apply List.getElem?_eq_none
        omega
      rw [e1, e2]

theorem hasName_iff_spec {T : Type} (name : List Byte) (nameLen : Nat)
    (hlen : nameLen ≤ name.length) (l : List (FValue T)) :
    HasName (mkString name nameLen) l ↔ ∃ r ∈ l, SpecNameMatches name nameLen r := by
  constructor
  · rintro ⟨r, hr, e⟩
    exact ⟨r, hr, (specNameMatches_iff name nameLen hlen r).1 e.symm⟩
  · rintro ⟨r, hr, e⟩
    exact ⟨r, hr, ((specNameMatches_iff name nameLen hlen r).2 e).symm⟩

/-- C16: a failed Get does not touch the output slot. For every registry state,
every name not present in the given type's list and every prior content `W` of the
output slot, `zig_luau_getflag_bool` (respectively `zig_luau_getflag_int`) returns
false and the slot still holds `W`. -/
theorem failed_get_keeps_slot (s : Registry) (name : List Byte) (nameLen : Nat) :
    (¬ HasName (mkString name nameLen) s.boolList → ∀ W : Bool,
      (zig_luau_getflag_bool name nameLen W s).1 = (false, W)) ∧
    (¬ HasName (mkString name nameLen) s.intList → ∀ W : Int,
      (zig_luau_getflag_int name nameLen W s).1 = (false, W)) := by
  constructor
  · intro h W
    exact getLoop_not_found _ W _ h
  · intro h W
    exact getLoop_not_found _ W _ h

/-- Witness of C16 on the example registry: `z` is no boolean flag, `y` no integer
flag; the slots held `true` and `77`. -/
theorem failed_get_keeps_slot_witness :
    (¬ HasName (mkString [122] 1) exRegistry.boolList) ∧
    (¬ HasName (mkString [121] 1) exRegistry.intList) ∧
    (zig_luau_getflag_bool [122] 1 true exRegistry).1 = (false, true) ∧
    (zig_luau_getflag_int [121] 1 77 exRegistry).1 = (false, 77) :=
  ⟨by decide, by decide,
    (failed_get_keeps_slot exRegistry [122] 1).1 (by decide) true,
    (failed_get_keeps_slot exRegistry [121] 1).2 (by decide) 77⟩

/-- C17: a queried name containing a zero byte never matches. For every registry
state and every name buffer whose first `nameLen` bytes contain a zero byte, each of
the typed Gets and Sets returns false, the Gets leave the output slot as it was, and
the registry is unchanged, also when the bytes before the zero byte spell a
registered name. -/
theorem zero_byte_never_matches (s : Registry) (name : List Byte) (nameLen : Nat)
    (hz : (0 : Byte) ∈ mkString name nameLen) :
    (∀ slot : Bool, zig_luau_getflag_bool name nameLen slot s = ((false, slot), s)) ∧
    (∀ slot : Int, zig_luau_getflag_int name nameLen slot s = ((false, slot), s)) ∧
    (∀ V : Bool, zig_luau_setflag_bool name nameLen V s = (false, s)) ∧
    (∀ V : Int, zig_luau_setflag_int name nameLen V s = (false, s)) := by
  have hno : ∀ {T : Type} (l : List (FValue T)), ¬ HasName (mkString name nameLen) l := by
    intro T l ⟨r, _, e⟩
    rw [← e] at hz
    exact zero_not_mem_cstr _ hz
  refine ⟨fun slot => ?_, fun slot => ?_, fun V => ?_, fun V => ?_⟩
  · simp [zig_luau_getflag_bool, getLoop_not_found _ slot _ (hno _)]
  · simp [zig_luau_getflag_int, getLoop_not_found _ slot _ (hno _)]
  · simp [zig_luau_setflag_bool, setLoop_not_found _ V _ (hno _)]
  · simp [zig_luau_setflag_int, setLoop_not_found _ V _ (hno _)]

/-- Witness of C17 on the example registry: the queried name is `x`, a zero byte,
`y` with declared length 3; `x` is registered in both lists. -/
theorem zero_byte_never_matches_witness :
    (0 : Byte) ∈ mkString [120, 0, 121] 3 ∧
    HasName [120] exRegistry.boolList ∧ HasName [120] exRegistry.intList ∧
    (∀ slot : Bool,
      zig_luau_getflag_bool [120, 0, 121] 3 slot exRegistry = ((false, slot), exRegistry)) ∧
    (∀ slot : Int,
      zig_luau_getflag_int [120, 0, 121] 3 slot exRegistry = ((false, slot), exRegistry)) ∧
    (∀ V : Bool, zig_luau_setflag_bool [120, 0, 121] 3 V exRegistry = (false, exRegistry)) ∧
    (∀ V : Int, zig_luau_setflag_int [120, 0, 121] 3 V exRegistry = (false, exRegistry)) :=
  ⟨by decide, by decide, by decide,
    zero_byte_never_matches exRegistry [120, 0, 121] 3 (by decide)⟩

theorem getLoop_spec_words {T : Type} (name : List Byte) (nameLen : Nat)
    (hlen : nameLen ≤ name.length) (slot : T) (l : List (FValue T))
    (h : (getLoop (mkString name nameLen) slot l).1 = true) :
    ∃ (j : Nat) (r : FValue T), l[j]? = some r ∧ SpecNameMatches name nameLen r ∧
      (∀ (k : Nat) (r' : FValue T), k < j → l[k]? = some r' →
        ¬ SpecNameMatches name nameLen r') ∧
      (getLoop (mkString name nameLen) slot l).2 = r.value := by
  obtain ⟨j, r, hj, hname, hfirst, hget⟩ :=
    getLoop_spec _ slot _ ((getLoop_fst_iff _ slot _).1 h)
  refine ⟨j, r, hj, (specNameMatches_iff name nameLen hlen r).1 hname.symm, ?_, by rw [hget]⟩
  intro k r' hk hkr hm
  exact hfirst k r' hk hkr ((specNameMatches_iff name nameLen hlen r').2 hm).symm

theorem proper_prefix_not_matches {T : Type} (name : List Byte) (nameLen : Nat)
    (hlen : nameLen ≤ name.length) (r : FValue T)
    (h : (mkString name nameLen <+: cstr r.name ∧ mkString name nameLen ≠ cstr r.name) ∨
      (cstr r.name <+: mkString name nameLen ∧ cstr r.name ≠ mkString name nameLen)) :
    ¬ SpecNameMatches name nameLen r := by
  intro hm
  have e := (specNameMatches_iff name nameLen hlen r).2 hm
  rcases h with ⟨_, hne⟩ | ⟨_, hne⟩
  · exact hne e
  · exact hne e.symm

theorem getLoop_skip {T : Type} (flagName : List Byte) (slot : T) (r : FValue T)
    (l1 l2 : List (FValue T)) (h : flagName ≠ cstr r.name) :
    getLoop flagName slot (l1 ++ r :: l2) = getLoop flagName slot (l1 ++ l2) := by
  induction l1 with
  | nil => simp [getLoop, h]
  | cons a t ih =>
    by_cases ha : flagName = cstr a.name
    · simp [getLoop, ha]
    · simp [getLoop, ha, ih]

theorem setLoop_skip_fst {T : Type} (flagName : List Byte) (value : T) (r : FValue T)
    (l1 l2 : List (FValue T)) (h : flagName ≠ cstr r.name) :
    (setLoop flagName value (l1 ++ r :: l2)).1 = (setLoop flagName value (l1 ++ l2)).1 := by
  induction l1 with
  | nil => simp [setLoop, h]
  | cons a t ih =>
    by_cases ha : flagName = cstr a.name
    · simp [setLoop, ha]
    · simp [setLoop, ha, ih]

theorem proper_prefix_ne {T : Type} (q : List Byte) (r : FValue T)
    (h : (q <+: cstr r.name ∧ q ≠ cstr r.name) ∨ (cstr r.name <+: q ∧ cstr r.name ≠ q)) :
    q ≠ cstr r.name := by
  rcases h with ⟨_, hne⟩ | ⟨_, hne⟩
  · exact hne
  · exact fun e => hne e.symm

/-- C13: names are compared by declared length with exact equality. For a buffer
holding its declared `nameLen` bytes, the typed Get returns true exactly when some
record of the list has a name of exactly `nameLen` bytes equal, byte for byte, to
the first `nameLen` bytes of the buffer; it then yields the value of the first such
record, and the typed Set returns what the Get returns. The results of all four
operations are the same for two buffers that agree on their first `nameLen` bytes,
so no byte at or after index `nameLen`, terminator or not, matters. A record of
whose name the queried bytes are a proper prefix, or whose name followed by extra
bytes gives the queried bytes, does not satisfy the criterion and is passed over by
the scan: the results are those on the list without it; and such a queried name,
not being itself the name of a record of the list, is reported as not found by Get
and by Set, the output slot and the registry staying as they were. -/
theorem names_compared_by_declared_length (s : Registry) (name : List Byte) (nameLen : Nat) :
    (nameLen ≤ name.length →
      (∀ slot : Bool,
        ((zig_luau_getflag_bool name nameLen slot s).1.1 = true ↔
          ∃ r ∈ s.boolList, SpecNameMatches name nameLen r) ∧
        ((zig_luau_getflag_bool name nameLen slot s).1.1 = true →
          ∃ (j : Nat) (r : FValue Bool), s.boolList[j]? = some r ∧
            SpecNameMatches name nameLen r ∧
            (∀ (k : Nat) (r' : FValue Bool), k < j → s.boolList[k]? = some r' →
              ¬ SpecNameMatches name nameLen r') ∧
            (zig_luau_getflag_bool name nameLen slot s).1.2 = r.value) ∧
        (∀ V : Bool, (zig_luau_setflag_bool name nameLen V s).1 =
          (zig_luau_getflag_bool name nameLen slot s).1.1)) ∧
      (∀ slot : Int,
        ((zig_luau_getflag_int name nameLen slot s).1.1 = true ↔
          ∃ r ∈ s.intList, SpecNameMatches name nameLen r) ∧
        ((zig_luau_getflag_int name nameLen slot s).1.1 = true →
          ∃ (j : Nat) (r : FValue Int), s.intList[j]? = some r ∧
            SpecNameMatches name nameLen r ∧
            (∀ (k : Nat) (r' : FValue Int), k < j → s.intList[k]? = some r' →
              ¬ SpecNameMatches name nameLen r') ∧
            (zig_luau_getflag_int name nameLen slot s).1.2 = r.value) ∧
        (∀ V : Int, (zig_luau_setflag_int name nameLen V s).1 =
          (zig_luau_getflag_int name nameLen slot s).1.1)) ∧
      (∀ (T : Type) (r : FValue T),
        ((mkString name nameLen <+: cstr r.name ∧ mkString name nameLen ≠ cstr r.name) ∨
          (cstr r.name <+: mkString name nameLen ∧ cstr r.name ≠ mkString name nameLen)) →
        ¬ SpecNameMatches name nameLen r)) ∧
    (∀ name' : List Byte, name'.take nameLen = name.take nameLen →
      (∀ slot : Bool, zig_luau_getflag_bool name' nameLen slot s =
        zig_luau_getflag_bool name nameLen slot s) ∧
      (∀ slot : Int, zig_luau_getflag_int name' nameLen slot s =
        zig_luau_getflag_int name nameLen slot s) ∧
      (∀ V : Bool, zig_luau_setflag_bool name' nameLen V s =
        zig_luau_setflag_bool name nameLen V s) ∧
      (∀ V : Int, zig_luau_setflag_int name' nameLen V s =
        zig_luau_setflag_int name nameLen V s)) ∧
    (∀ (r : FValue Bool) (l1 l2 : List (FValue Bool)), s.boolList = l1 ++ r :: l2 →
      ((mkString name nameLen <+: cstr r.name ∧ mkString name nameLen ≠ cstr r.name) ∨
        (cstr r.name <+: mkString name nameLen ∧ cstr r.name ≠ mkString name nameLen)) →
      (∀ slot : Bool, (zig_luau_getflag_bool name nameLen slot s).1 =
        (zig_luau_getflag_bool name nameLen slot { s with boolList := l1 ++ l2 }).1) ∧
      (∀ V : Bool, (zig_luau_setflag_bool name nameLen V s).1 =
        (zig_luau_setflag_bool name nameLen V { s with boolList := l1 ++ l2 }).1)) ∧
    (∀ (r : FValue Int) (l1 l2 : List (FValue Int)), s.intList = l1 ++ r :: l2 →
      ((mkString name nameLen <+: cstr r.name ∧ mkString name nameLen ≠ cstr r.name) ∨
        (cstr r.name <+: mkString name nameLen ∧ cstr r.name ≠ mkString name nameLen)) →
      (∀ slot : Int, (zig_luau_getflag_int name nameLen slot s).1 =
        (zig_luau_getflag_int name nameLen slot { s with intList := l1 ++ l2 }).1) ∧
      (∀ V : Int, (zig_luau_setflag_int name nameLen V s).1 =
        (zig_luau_setflag_int name nameLen V { s with intList := l1 ++ l2 }).1)) ∧
    ((∃ r ∈ s.boolList,
        (mkString name nameLen <+: cstr r.name ∧ mkString name nameLen ≠ cstr r.name) ∨
        (cstr r.name <+: mkString name nameLen ∧ cstr r.name ≠ mkString name nameLen)) →
      ¬ HasName (mkString name nameLen) s.boolList →
      (∀ slot : Bool, zig_luau_getflag_bool name nameLen slot s = ((false, slot), s)) ∧
      (∀ V : Bool, zig_luau_setflag_bool name nameLen V s = (false, s))) ∧
    ((∃ r ∈ s.intList,
        (mkString name nameLen <+: cstr r.name ∧ mkString name nameLen ≠ cstr r.name) ∨
        (cstr r.name <+: mkString name nameLen ∧ cstr r.name ≠ mkString name nameLen)) →
      ¬ HasName (mkString name nameLen) s.intList →
      (∀ slot : Int, zig_luau_getflag_int name nameLen slot s = ((false, slot), s)) ∧
      (∀ V : Int, zig_luau_setflag_int name nameLen V s = (false, s))) := by
  refine ⟨fun hlen => ⟨fun slot => ⟨?_, ?_, ?_⟩, fun slot => ⟨?_, ?_, ?_⟩, ?_⟩,
    ?_, ?_, ?_, ?_, ?_⟩
  · exact (getLoop_fst_iff _ slot _).trans (hasName_iff_spec name nameLen hlen _)
  · exact getLoop_spec_words name nameLen hlen slot _
  · exact fun V => setLoop_fst_eq_getLoop_fst _ V slot _
  · exact (getLoop_fst_iff _ slot _).trans (hasName_iff_spec name nameLen hlen _)
  · exact getLoop_spec_words name nameLen hlen slot _
  · exact fun V => setLoop_fst_eq_getLoop_fst _ V slot _
  · exact fun T r h => proper_prefix_not_matches name nameLen hlen r h
  · intro name' h
    have e : mkString name' nameLen = mkString name nameLen := h
    refine ⟨fun slot => ?_, fun slot => ?_, fun V => ?_, fun V => ?_⟩
    · simp only [zig_luau_getflag_bool, e]
    · simp only [zig_luau_getflag_int, e]
    · simp only [zig_luau_setflag_bool, e]
    · simp only [zig_luau_setflag_int, e]
  · intro r l1 l2 hl hrel
    have hne := proper_prefix_ne _ r hrel
    refine ⟨fun slot => ?_, fun V => ?_⟩
    · simp only [zig_luau_getflag_bool, hl]
      exact getLoop_skip _ slot r l1 l2 hne
    · simp only [zig_luau_setflag_bool, hl]
      exact setLoop_skip_fst _ V r l1 l2 hne
  · intro r l1 l2 hl hrel
    have hne := proper_prefix_ne _ r hrel
    refine ⟨fun slot => ?_, fun V => ?_⟩
    · simp only [zig_luau_getflag_int, hl]
      exact getLoop_skip _ slot r l1 l2 hne
    · simp only [zig_luau_setflag_int, hl]
      exact setLoop_skip_fst _ V r l1 l2 hne
  · intro _ h
    exact ⟨fun slot => by simp [zig_luau_getflag_bool, getLoop_not_found _ slot _ h],
      fun V => by simp [zig_luau_setflag_bool, setLoop_not_found _ V _ h]⟩
  · intro _ h
    exact ⟨fun slot => by simp [zig_luau_getflag_int, getLoop_not_found _ slot _ h],
      fun V => by simp [zig_luau_setflag_int, setLoop_not_found _ V _ h]⟩

/-- Witness of C13. On the registry with the boolean names `xy` and `x`, for the
buffer `x`, `y`, `z` with declared length 2 the record `xy` is found though no
terminator follows, and a buffer differing only beyond the declared length gives the
same result; for the query `x` the record `xy`, of whose name `x` is a proper
prefix, is passed over. On the registry with the names `xyz` and `x`, the query
`xy`, a proper prefix of `xyz` and `x` followed by an extra byte, is not found. -/
theorem names_compared_by_declared_length_witness :
    (2 ≤ [120, 121, 122].length ∧
      (zig_luau_getflag_bool [120, 121, 122] 2 false exPrefix).1.1 = true ∧
      ∃ (j : Nat) (r : FValue Bool), exPrefix.boolList[j]? = some r ∧
        SpecNameMatches [120, 121, 122] 2 r ∧
        (∀ (k : Nat) (r' : FValue Bool), k < j → exPrefix.boolList[k]? = some r' →
          ¬ SpecNameMatches [120, 121, 122] 2 r') ∧
        (zig_luau_getflag_bool [120, 121, 122] 2 false exPrefix).1.2 = r.value) ∧
    (zig_luau_getflag_int [120, 121, 7] 2 0 exPrefix =
      zig_luau_getflag_int [120, 121, 122] 2 0 exPrefix) ∧
    ((zig_luau_getflag_bool [120] 1 true exPrefix).1 =
        (zig_luau_getflag_bool [120] 1 true
          { exPrefix with boolList := [] ++ [{ value := false, name := [120, 0] }] }).1 ∧
      (zig_luau_getflag_bool [120] 1 true exPrefix).1 = (true, false)) ∧
    ((∃ r ∈ exNearMiss.boolList,
        (mkString [120, 121] 2 <+: cstr r.name ∧ mkString [120, 121] 2 ≠ cstr r.name) ∨
        (cstr r.name <+: mkString [120, 121] 2 ∧ cstr r.name ≠ mkString [120, 121] 2)) ∧
      ¬ HasName (mkString [120, 121] 2) exNearMiss.boolList ∧
      (∀ slot : Bool,
        zig_luau_getflag_bool [120, 121] 2 slot exNearMiss = ((false, slot), exNearMiss)) ∧
      (∀ V : Bool, zig_luau_setflag_bool [120, 121] 2 V exNearMiss = (false, exNearMiss))) ∧
    ((∀ slot : Int,
        zig_luau_getflag_int [120, 121] 2 slot exNearMiss = ((false, slot), exNearMiss)) ∧
      (∀ V : Int, zig_luau_setflag_int [120, 121] 2 V exNearMiss = (false, exNearMiss))) :=
  ⟨⟨by decide, by decide,
      (((names_compared_by_declared_length exPrefix [120, 121, 122] 2).1 (by decide)).1
        false).2.1 (by decide)⟩,
    ((names_compared_by_declared_length exPrefix [120, 121, 122] 2).2.1
      [120, 121, 7] (by decide)).2.1 0,
    ⟨((names_compared_by_declared_length exPrefix [120] 1).2.2.1
        { value := true, name := [120, 121, 0] } [] [{ value := false, name := [120, 0] }]
        rfl (by decide)).1 true, by decide⟩,
    ⟨by decide, by decide,
      (names_compared_by_declared_length exNearMiss [120, 121] 2).2.2.2.2.1
        (by decide) (by decide)⟩,
    (names_compared_by_declared_length exNearMiss [120, 121] 2).2.2.2.2.2
      (by decide) (by decide)⟩

/-! ## The assertion handler: main result -/

theorem printf_assertion (file expr : List Byte) (line : Int) :
    printf "%s(%d): ASSERTION FAILED: %s\n".toList
      [PrintfArg.str file, PrintfArg.int line, PrintfArg.str expr] =
    specDiagnostic file (fmtInt line) expr ++ [10] := by
  simp [printf, specDiagnostic, charByte]
  rfl

theorem digitVal_digitChar (k : Nat) (hk : k < 10) :
    digitVal (charByte (Nat.digitChar k)) = some k ∧
    charByte (Nat.digitChar k) ≠ 45 ∧
    (k ≠ 0 → charByte (Nat.digitChar k) ≠ 48) := by
  interval_cases k <;> decide

theorem readDigits_append (a b : List Byte) (acc : Nat) :
    readDigits (a ++ b) acc = (readDigits a acc).bind (readDigits b) := by
  induction a generalizing acc with
  | nil => simp [readDigits]
  | cons x t ih =>
    simp only [List.cons_append, readDigits]
    cases digitVal x with
    | none => simp
    | some d => simp [ih]

theorem toDigitsCore_read (fuel n : Nat) (ds : List Char) (h : n < fuel) :
    ∃ (c : Char) (rest : List Char), Nat.toDigitsCore 10 fuel n ds = c :: rest ++ ds ∧
      (∀ acc : Nat, readDigits ((c :: rest).map charByte) acc =
        some (acc * 10 ^ (c :: rest).length + n)) ∧
      charByte c ≠ 45 ∧ (n ≠ 0 → charByte c ≠ 48) ∧ (n = 0 → rest = []) := by
  induction fuel generalizing n ds with
  | zero => omega
  | succ fuel ih =>
    have hd := digitVal_digitChar (n % 10) (Nat.mod_lt _ (by decide))
    by_cases hz : n / 10 = 0
    · have hn : n % 10 = n := by omega
      refine ⟨Nat.digitChar (n % 10), [], by simp [Nat.toDigitsCore, hz], ?_, hd.2.1, ?_, ?_⟩
      · intro acc
        simp only [List.map_cons, List.map_nil, readDigits, hd.1, Option.some_bind,
          List.length_singleton, pow_one]
        congr 1
        omega
      · intro h0
        exact hd.2.2 (by omega)
      · intro _
        rfl
    · obtain ⟨c, rest, he, hr, h45, h48, _⟩ :=
        ih (n / 10) (Nat.digitChar (n % 10) :: ds) (by omega)
      refine ⟨c, rest ++ [Nat.digitChar (n % 10)], ?_, ?_, h45, fun _ => h48 hz, ?_⟩
      · simp [Nat.toDigitsCore, hz, he]
      · intro acc
        have e : (c :: (rest ++ [Nat.digitChar (n % 10)])).map charByte =
            (c :: rest).map charByte ++ [charByte (Nat.digitChar (n % 10))] := by simp
        rw [e, readDigits_append, hr acc]
        have key : 10 * (acc * 10 ^ (rest.length + 1) + n / 10) + n % 10 =
            acc * 10 ^ (rest.length + 1 + 1) + n := by
          have e1 : acc * 10 ^ (rest.length + 1 + 1) = 10 * (acc * 10 ^ (rest.length + 1)) := by
            rw [pow_succ 10 (rest.length + 1)]
            ring
          rw [e1]
          generalize acc * 10 ^ (rest.length + 1) = X
          omega
        simp only [Option.some_bind, readDigits, hd.1, List.length_cons, List.length_append,
          List.length_singleton, List.length_nil, Nat.zero_add]
        rw [key]
      · intro h0
        omega

theorem readNat_toDigits (m : Nat) :
    ∃ (b : Byte) (rest : List Byte), (Nat.toDigits 10 m).map charByte = b :: rest ∧
      b ≠ 45 ∧ readNat (b :: rest) = some m := by
  obtain ⟨c, rest, he, hr, h45, h48, h0⟩ := toDigitsCore_read (m + 1) m [] (by omega)
  refine ⟨charByte c, rest.map charByte, ?_, h45, ?_⟩
  · simp [Nat.toDigits, he]
  · have hr0 := hr 0
    simp only [List.map_cons, Nat.zero_mul, Nat.zero_add] at hr0
    by_cases hm : m = 0
    · have : rest = [] := h0 hm
      subst this
      simp only [readNat, List.map_nil, ne_eq, not_true_eq_false, and_false, if_false]
      exact hr0
    · have : ¬ (charByte c = 48 ∧ rest.map charByte ≠ []) := fun hh => h48 hm hh.1
      simp only [readNat, this, if_false]
      exact hr0

theorem readDecimal_fmtInt (n : Int) : readDecimal (fmtInt n) = some n := by
  cases n with
  | ofNat m =>
    obtain ⟨b, rest, he, h45, hr⟩ := readNat_toDigits m
    have hneg : ¬ (Int.ofNat m < 0) := by simp
    have hab : (Int.ofNat m).natAbs = m := rfl
    unfold fmtInt
    rw [if_neg hneg, hab, he]
    simp only [readDecimal, h45, if_false, hr, Option.map_some']
  | negSucc m =>
    obtain ⟨b, rest, he, _, hr⟩ := readNat_toDigits (m + 1)
    have hneg : Int.negSucc m < 0 := Int.negSucc_lt_zero m
    have hab : (Int.negSucc m).natAbs = m + 1 := rfl
    have hch : charByte '-' = 45 := rfl
    unfold fmtInt
    rw [if_pos hneg, hab, he, hch]
    simp only [readDecimal, if_true, hr]

/-- C15: the assertion handler. After `zig_registerAssertionHandler` the installed
handler is one that, for every expression text, file, line and function, appends to
standard output exactly the text `<file>(<line>): ASSERTION FAILED: <expr>` followed
by one newline, where `<line>` is a numeral that reads back as the line number
(decimal digits, no leading zero, a minus sign for a negative number), and returns
the status 1; the output and the status are the same for any other function
argument, and the status is 1 for every input. -/
theorem assertion_handler_prints_and_returns_one (slot : AssertSlot) :
    ∃ h : AssertHandler, (zig_registerAssertionHandler slot).handler = some h ∧
      ∀ (expr file : List Byte) (line : Int) (function out : List Byte),
        (∃ digits : List Byte, readDecimal digits = some line ∧
          h expr file line function out =
            (1, out ++ (specDiagnostic file digits expr ++ [10]))) ∧
        (h expr file line function out).1 = 1 ∧
        ∀ function' : List Byte,
          h expr file line function' out = h expr file line function out := by
  refine ⟨assertionHandler, rfl, ?_⟩
  intro expr file line function out
  refine ⟨⟨fmtInt line, readDecimal_fmtInt line, ?_⟩, rfl, fun _ => rfl⟩
  simp only [assertionHandler, printf_assertion]

/-- Witness of C15: installed into an empty slot, the handler called for the
expression `a`, the file `f.c`, line 42 and the function `g` appends the bytes of
`f.c(42): ASSERTION FAILED: a` and a newline to an empty output and returns 1; for the
line -7 the numeral printed is `-7`. -/
theorem assertion_handler_prints_and_returns_one_witness :
    ∃ h : AssertHandler, (zig_registerAssertionHandler { handler := none }).handler = some h ∧
      h [97, 0] [102, 46, 99, 0] 42 [103, 0] [] =
        (1, [102, 46, 99, 40, 52, 50, 41, 58, 32, 65, 83, 83, 69, 82, 84, 73, 79, 78, 32,
          70, 65, 73, 76, 69, 68, 58, 32, 97, 10]) ∧
      h [97, 0] [102, 0] (-7) [103, 0] [120] =
        (1, [120, 102, 40, 45, 55, 41, 58, 32, 65, 83, 83, 69, 82, 84, 73, 79, 78, 32,
          70, 65, 73, 76, 69, 68, 58, 32, 97, 10]) ∧
      readDecimal [52, 50] = some 42 ∧ readDecimal [45, 55] = some (-7) ∧
      readDecimal [] = none ∧ readDecimal [48, 52] = none := by
  obtain ⟨h, hh, _⟩ := assertion_handler_prints_and_returns_one { handler := none }
  have e : h = assertionHandler := (Option.some.inj hh).symm
  subst e
  exact ⟨assertionHandler, rfl, by decide, by decide, by decide, by decide, by decide,
    by decide⟩

/-! ## Snapshot ownership: lemmas and main result -/

theorem storePtr_of_mem (h : Heap) (p i v : Nat) (cells : List Nat)
    (hm : h.mem p = some (Block.ptrs cells)) :
    h.storePtr p i v =
      { h with mem := fun a => if a = p then some (Block.ptrs (cells.set i v)) else h.mem a } := by
  simp [Heap.storePtr, hm]

theorem storeInt_of_mem (h : Heap) (p i : Nat) (v : Int) (cells : List Int)
    (hm : h.mem p = some (Block.ints cells)) :
    h.storeInt p i v =
      { h with mem := fun a => if a = p then some (Block.ints (cells.set i v)) else h.mem a } := by
  simp [Heap.storeInt, hm]

theorem set_fill_ptrs (f : Nat → Nat) (n k : Nat) (hk : k < n) :
    ((List.range k).map f ++ List.replicate (n - k) 0).set k (f k) =
      (List.range (k + 1)).map f ++ List.replicate (n - (k + 1)) 0 := by
  obtain ⟨m, rfl⟩ : ∃ m, n = k + 1 + m := ⟨n - (k + 1), by omega⟩
  have e1 : k + 1 + m - k = m + 1 := by omega
  have e2 : k + 1 + m - (k + 1) = m := by omega
  rw [List.set_append_right _ _ (by simp), e1, e2, List.replicate_succ]
  simp [List.range_succ]

theorem set_fill_ints (T : List Int) (n k : Nat) (hk : k < n) (hT : T.length = n) :
    (T.take k ++ List.replicate (n - k) 0).set k (T.getD k 0) =
      T.take (k + 1) ++ List.replicate (n - (k + 1)) 0 := by
  obtain ⟨m, rfl⟩ : ∃ m, n = k + 1 + m := ⟨n - (k + 1), by omega⟩
  have e1 : k + 1 + m - k = m + 1 := by omega
  have e2 : k + 1 + m - (k + 1) = m := by omega
  have hl : (T.take k).length = k := by simp [List.length_take]; omega
  have hk' : k < T.length := by omega
  have hget : T.getD k 0 = T[k] := by
    simp [List.getD, List.getElem?_eq_getElem hk']
  have htk : T.take (k + 1) = T.take k ++ [T[k]] := by
    rw [List.take_succ, List.getElem?_eq_getElem hk']
    rfl
  rw [hget, List.set_append_right _ _ (by omega), e1, e2, List.replicate_succ, hl, htk,
    Nat.sub_self, List.set_cons_zero, List.append_assoc]
  rfl

theorem copyLoopHeap_rounds (base : Nat → Option Block) (L : List (List Byte)) (T : List Int)
    (a0 n : Nat) (hT : T.length = n) (lg : List HeapEvent) (k : Nat) (hk : k ≤ n) :
    (List.range k).foldl
        (fun (hh : Heap) (i : Nat) =>
          ((hh.malloc (strdup (c_str (L.getD i [])))).2.storePtr a0 i
            (hh.malloc (strdup (c_str (L.getD i [])))).1).storeInt (a0 + 1) i (T.getD i 0))
        ({ next := a0 + 2, mem := snapMem base a0 n 0 L T, log := lg } : Heap) =
      ({ next := a0 + 2 + k, mem := snapMem base a0 n k L T,
         log := lg ++ (List.range k).map (fun i => HeapEvent.malloc (a0 + 2 + i)) } : Heap) := by
  induction k with
  | zero => simp
  | succ k ih =>
    rw [List.range_succ, List.foldl_append, ih (by omega)]
    simp only [List.foldl_cons, List.foldl_nil, Heap.malloc]
    have hm1 : (fun a => if a = a0 + 2 + k then
          some (Block.chars (strdup (c_str (L.getD k [])))) else snapMem base a0 n k L T a) a0 =
        some (Block.ptrs ((List.range k).map (fun i => a0 + 2 + i) ++
          List.replicate (n - k) 0)) := by
      have : ¬ a0 = a0 + 2 + k := by omega
      simp [snapMem, this]
    rw [storePtr_of_mem _ _ _ _ _ hm1]
    have hm2 : (fun a => if a = a0 then
          some (Block.ptrs (((List.range k).map (fun i => a0 + 2 + i) ++
            List.replicate (n - k) 0).set k (a0 + 2 + k)))
          else (fun a => if a = a0 + 2 + k then
            some (Block.chars (strdup (c_str (L.getD k [])))) else snapMem base a0 n k L T a) a)
          (a0 + 1) = some (Block.ints (T.take k ++ List.replicate (n - k) 0)) := by
      have : ¬ a0 + 1 = a0 + 2 + k := by omega
      simp [snapMem, this]
    rw [storeInt_of_mem _ _ _ _ _ hm2]
    rw [set_fill_ptrs (fun i => a0 + 2 + i) n k (by omega), set_fill_ints T n k (by omega) hT]
    apply Heap.ext
    · simp; omega
    · funext a
      simp only [snapMem]
      by_cases h1 : a = a0
      · simp [h1]
      · by_cases h2 : a = a0 + 1
        · simp [h2]
        · by_cases h3 : a = a0 + 2 + k
          · subst h3
            simp [h1, h2]
          · have : (a0 + 2 ≤ a ∧ a < a0 + 2 + (k + 1)) ↔ (a0 + 2 ≤ a ∧ a < a0 + 2 + k) := by
              omega
            simp [h1, h2, h3, this]
    · simp [List.range_succ]

theorem loadPtr_of_mem (h : Heap) (p i : Nat) (cells : List Nat)
    (hm : h.mem p = some (Block.ptrs cells)) : h.loadPtr p i = cells[i]? := by
  simp [Heap.loadPtr, hm]

theorem free_of_mem (h : Heap) (p : Nat) (bytes : List Byte)
    (hm : h.mem p = some (Block.chars bytes)) :
    h.free p = some { h with mem := fun a => if a = p then none else h.mem a,
                             log := h.log ++ [HeapEvent.free p] } := by
  simp [Heap.free, hm]

theorem getflags_heap_eq (s : Registry) (h : Heap) :
    zig_luau_getflags_heap s h =
      ({ names := h.next, types := h.next + 1,
         size := s.boolList.length + s.intList.length },
       { next := h.next + 2 + (s.boolList.length + s.intList.length),
         mem := snapMem h.mem h.next (s.boolList.length + s.intList.length)
           (s.boolList.length + s.intList.length)
           (s.boolList.map (fun r => cstr r.name) ++ s.intList.map (fun r => cstr r.name))
           (List.replicate s.boolList.length 0 ++ List.replicate s.intList.length 1),
         log := h.log ++ (HeapEvent.newArray h.next :: HeapEvent.newArray (h.next + 1) ::
           (List.range (s.boolList.length + s.intList.length)).map
             (fun i => HeapEvent.malloc (h.next + 2 + i))) }) := by
  unfold zig_luau_getflags_heap copyLoopHeap
  simp only [collectLoop_eq, List.nil_append, Heap.newPtrs, Heap.newInts, List.length_append,
    List.length_map]
  have hstart : Heap.mk (h.next + 1 + 1)
        (fun a => if a = h.next + 1 then
            some (Block.ints (List.replicate (s.boolList.length + s.intList.length) 0))
          else if a = h.next then
            some (Block.ptrs (List.replicate (s.boolList.length + s.intList.length) 0))
          else h.mem a)
        (h.log ++ [HeapEvent.newArray h.next] ++ [HeapEvent.newArray (h.next + 1)]) =
      Heap.mk (h.next + 2)
        (snapMem h.mem h.next (s.boolList.length + s.intList.length) 0
          (s.boolList.map (fun r => cstr r.name) ++ s.intList.map (fun r => cstr r.name))
          (List.replicate s.boolList.length 0 ++ List.replicate s.intList.length 1))
        (h.log ++ [HeapEvent.newArray h.next, HeapEvent.newArray (h.next + 1)]) := by
    apply Heap.ext
    · rfl
    · funext a
      simp only [snapMem]
      by_cases h1 : a = h.next
      · have : ¬ h.next = h.next + 1 := by omega
        simp [h1, this]
      · by_cases h2 : a = h.next + 1
        · simp [h2]
        · have : ¬ (h.next + 2 ≤ a ∧ a < h.next + 2 + 0) := by omega
          simp [h1, h2, this]
    · simp
  rw [hstart, copyLoopHeap_rounds h.mem _ _ h.next _ (by simp) _ _ (Nat.le_refl _)]
  simp

theorem freeLoop_rounds (base : Nat → Option Block) (L : List (List Byte)) (T : List Int)
    (a0 n nx : Nat) (lg : List HeapEvent) (k : Nat) (hk : k ≤ n) :
    (List.range k).foldlM
        (fun (hh : Heap) (i : Nat) => (hh.loadPtr a0 i).bind (fun p => hh.free p))
        ({ next := nx, mem := snapMem base a0 n n L T, log := lg } : Heap) =
      some ({ next := nx,
              mem := fun a => if a0 + 2 ≤ a ∧ a < a0 + 2 + k then none
                else snapMem base a0 n n L T a,
              log := lg ++ (List.range k).map (fun i => HeapEvent.free (a0 + 2 + i)) } : Heap) := by
  induction k with
  | zero =>
    simp only [List.range_zero, List.foldlM_nil, List.map_nil, List.append_nil]
    congr 1
    apply Heap.ext
    · rfl
    · funext a
      have : ¬ (a0 + 2 ≤ a ∧ a < a0 + 2 + 0) := by omega
      simp [this]
    · rfl
  | succ k ih =>
    rw [List.range_succ, List.foldlM_append, ih (by omega)]
    simp only [Option.bind_eq_bind, Option.some_bind, List.foldlM_cons, List.foldlM_nil]
    have hm1 : (fun a => if a0 + 2 ≤ a ∧ a < a0 + 2 + k then none
          else snapMem base a0 n n L T a) a0 =
        some (Block.ptrs ((List.range n).map (fun i => a0 + 2 + i) ++
          List.replicate (n - n) 0)) := by
      have : ¬ (a0 + 2 ≤ a0 ∧ a0 < a0 + 2 + k) := by omega
      simp [snapMem, this]
    rw [loadPtr_of_mem _ _ _ _ hm1]
    have hcell : ((List.range n).map (fun i => a0 + 2 + i) ++ List.replicate (n - n) 0)[k]? =
        some (a0 + 2 + k) := by
      rw [List.getElem?_append_left (by simp; omega)]
      simp [List.getElem?_range (show k < n by omega)]
    rw [hcell]
    simp only [Option.some_bind]
    have hm2 : (fun a => if a0 + 2 ≤ a ∧ a < a0 + 2 + k then none
          else snapMem base a0 n n L T a) (a0 + 2 + k) =
        some (Block.chars (strdup (c_str (L.getD (a0 + 2 + k - (a0 + 2)) [])))) := by
      have h1 : ¬ (a0 + 2 ≤ a0 + 2 + k ∧ a0 + 2 + k < a0 + 2 + k) := by omega
      have h2 : ¬ a0 + 2 + k = a0 := by omega
      have h3 : ¬ a0 + 2 + k = a0 + 1 := by omega
      have h4 : a0 + 2 ≤ a0 + 2 + k ∧ a0 + 2 + k < a0 + 2 + n := by omega
      simp [snapMem, h1, h2, h3, h4]
    rw [free_of_mem _ _ _ hm2]
    simp only [Option.pure_def, Option.some_bind]
    congr 1
    apply Heap.ext
    · rfl
    · funext a
      by_cases h3 : a = a0 + 2 + k
      · subst h3
        have : a0 + 2 ≤ a0 + 2 + k ∧ a0 + 2 + k < a0 + 2 + (k + 1) := by omega
        simp [this]
      · have : (a0 + 2 ≤ a ∧ a < a0 + 2 + (k + 1)) ↔ (a0 + 2 ≤ a ∧ a < a0 + 2 + k) := by
          omega
        simp [h3, this]
    · simp [List.range_succ]

theorem deleteArray_of_ptrs (h : Heap) (p : Nat) (cells : List Nat)
    (hm : h.mem p = some (Block.ptrs cells)) :
    h.deleteArray p = some { h with mem := fun a => if a = p then none else h.mem a,
                                    log := h.log ++ [HeapEvent.deleteArray p] } := by
  simp [Heap.deleteArray, hm]

theorem deleteArray_of_ints (h : Heap) (p : Nat) (cells : List Int)
    (hm : h.mem p = some (Block.ints cells)) :
    h.deleteArray p = some { h with mem := fun a => if a = p then none else h.mem a,
                                    log := h.log ++ [HeapEvent.deleteArray p] } := by
  simp [Heap.deleteArray, hm]

theorem freeflags_snapshot (base : Nat → Option Block) (L : List (List Byte)) (T : List Int)
    (a0 n nx : Nat) (lg : List HeapEvent) (hbase : ∀ a : Nat, a0 ≤ a → base a = none) :
    zig_luau_freeflags { names := a0, types := a0 + 1, size := n }
        { next := nx, mem := snapMem base a0 n n L T, log := lg } =
      some { next := nx, mem := base,
             log := lg ++ ((List.range n).map (fun i => HeapEvent.free (a0 + 2 + i)) ++
               [HeapEvent.deleteArray a0, HeapEvent.deleteArray (a0 + 1)]) } := by
  unfold zig_luau_freeflags
  simp only []
  rw [freeLoop_rounds base L T a0 n nx lg n (Nat.le_refl _)]
  simp only [Option.some_bind]
  have hm1 : (fun a => if a0 + 2 ≤ a ∧ a < a0 + 2 + n then none
        else snapMem base a0 n n L T a) a0 =
      some (Block.ptrs ((List.range n).map (fun i => a0 + 2 + i) ++
        List.replicate (n - n) 0)) := by
    have : ¬ (a0 + 2 ≤ a0 ∧ a0 < a0 + 2 + n) := by omega
    simp [snapMem, this]
  rw [deleteArray_of_ptrs _ _ _ hm1]
  simp only [Option.some_bind]
  have hm2 : (fun a => if a = a0 then none else
        (fun a => if a0 + 2 ≤ a ∧ a < a0 + 2 + n then none
          else snapMem base a0 n n L T a) a) (a0 + 1) =
      some (Block.ints (T.take n ++ List.replicate (n - n) 0)) := by
    have h1 : ¬ (a0 + 2 ≤ a0 + 1 ∧ a0 + 1 < a0 + 2 + n) := by omega
    simp [snapMem, h1]
  rw [deleteArray_of_ints _ _ _ hm2]
  congr 1
  apply Heap.ext
  · rfl
  · funext a
    simp only [snapMem]
    by_cases h1 : a = a0 + 1
    · simp [h1, hbase (a0 + 1) (by omega)]
    · by_cases h2 : a = a0
      · simp [h2, hbase a0 (Nat.le_refl _)]
      · by_cases h3 : a0 + 2 ≤ a ∧ a < a0 + 2 + n
        · simp [h1, h2, h3, hbase a (by omega)]
        · simp [h1, h2, h3]
  · simp

/-- C12: snapshot ownership is balanced. On a heap where no address from `next` on
is in use, `zig_luau_getflags` returns the group of the two arrays at `next` and
`next + 1` with `size = b + i`; it allocates exactly the names array, the types
array and `size` name copies, in this order, at the fresh addresses `next`, ...,
`next + 1 + size`, none of them in use before the call, and alters no block that
existed; the arrays hold the addresses of the name copies and the tags, the copies
the names of the snapshot. `zig_luau_freeflags` applied once to that group does not
fault, releases every one of the `size` name copies with `free` and then the two
arrays with `delete[]`, and leaves the memory as it was before `zig_luau_getflags`:
no block of the snapshot is live and nothing else was released. -/
theorem snapshot_ownership_balanced (s : Registry) (h : Heap) (hfresh : h.Fresh) :
    (zig_luau_getflags_heap s h).1 =
      { names := h.next, types := h.next + 1,
        size := s.boolList.length + s.intList.length } ∧
    (zig_luau_getflags_heap s h).2.log =
      h.log ++ (HeapEvent.newArray h.next :: HeapEvent.newArray (h.next + 1) ::
        (List.range (s.boolList.length + s.intList.length)).map
          (fun i => HeapEvent.malloc (h.next + 2 + i))) ∧
    (∀ a : Nat, h.next ≤ a → a < h.next + 2 + (s.boolList.length + s.intList.length) →
      h.mem a = none ∧ (zig_luau_getflags_heap s h).2.mem a ≠ none) ∧
    (∀ a : Nat, a < h.next ∨ h.next + 2 + (s.boolList.length + s.intList.length) ≤ a →
      (zig_luau_getflags_heap s h).2.mem a = h.mem a) ∧
    (zig_luau_getflags_heap s h).2.mem h.next =
      some (Block.ptrs ((List.range (s.boolList.length + s.intList.length)).map
        (fun i => h.next + 2 + i))) ∧
    (zig_luau_getflags_heap s h).2.mem (h.next + 1) =
      some (Block.ints (zig_luau_getflags s).1.types) ∧
    (∀ (i : Nat) (p : List Byte), (zig_luau_getflags s).1.names[i]? = some p →
      (zig_luau_getflags_heap s h).2.mem (h.next + 2 + i) = some (Block.chars p)) ∧
    ∃ h' : Heap,
      zig_luau_freeflags (zig_luau_getflags_heap s h).1 (zig_luau_getflags_heap s h).2 =
        some h' ∧
      h'.mem = h.mem ∧
      h'.log = (zig_luau_getflags_heap s h).2.log ++
        ((List.range (s.boolList.length + s.intList.length)).map
            (fun i => HeapEvent.free (h.next + 2 + i)) ++
          [HeapEvent.deleteArray h.next, HeapEvent.deleteArray (h.next + 1)]) := by
  rw [getflags_heap_eq, getflags_eq]
  refine ⟨rfl, rfl, ?_, ?_, ?_, ?_, ?_, ?_⟩
  · intro a h1 h2
    refine ⟨hfresh a h1, ?_⟩
    simp only [snapMem]
    by_cases e1 : a = h.next
    · simp [e1]
    · by_cases e2 : a = h.next + 1
      · simp [e2]
      · have : h.next + 2 ≤ a ∧ a < h.next + 2 + (s.boolList.length + s.intList.length) := by
          omega
        simp [e1, e2, this]
  · intro a ha
    have e1 : ¬ a = h.next := by omega
    have e2 : ¬ a = h.next + 1 := by omega
    have e3 : ¬ (h.next + 2 ≤ a ∧ a < h.next + 2 + (s.boolList.length + s.intList.length)) := by
      omega
    simp [snapMem, e1, e2, e3]
  · simp [snapMem]
  · simp [snapMem, List.take_of_length_le]
  · intro i p hp
    have hi : i < s.boolList.length + s.intList.length := by
      rcases Nat.lt_or_ge i (s.boolList.length + s.intList.length) with h1 | h1
      · exact h1
      · rw [List.getElem?_eq_none (by simpa using h1)] at hp
        cases hp
    have e1 : ¬ h.next + 2 + i = h.next := by omega
    have e2 : ¬ h.next + 2 + i = h.next + 1 := by omega
    simp only [snapMem, e1, e2, if_false]
    rw [if_pos ⟨by omega, by omega⟩]
    have e3 : h.next + 2 + i - (h.next + 2) = i := by omega
    rw [e3]
    have hL : (s.boolList.map (fun r => cstr r.name) ++
        s.intList.map (fun r => cstr r.name))[i]? = some
          ((s.boolList.map (fun r => cstr r.name) ++
            s.intList.map (fun r => cstr r.name)).getD i []) := by
      rw [List.getD_eq_getElem?_getD, List.getElem?_eq_getElem (by simpa using hi)]
      rfl
    have hmap : (s.boolList.map (fun r => cstr r.name ++ [0]) ++
        s.intList.map (fun r => cstr r.name ++ [0])) =
        (s.boolList.map (fun r => cstr r.name) ++
          s.intList.map (fun r => cstr r.name)).map (fun n => n ++ [0]) := by
      simp [Function.comp_def]
    dsimp only at hp
    rw [hmap, List.getElem?_map, hL] at hp
    simp only [Option.map_some', Option.some.injEq] at hp
    rw [← hp]
    generalize (s.boolList.map (fun r => cstr r.name) ++
      s.intList.map (fun r => cstr r.name)).getD i [] = q at hL
    have hq : ∃ r : List Byte, q = cstr r := by
      have hmem := List.getElem?_mem hL
      rcases List.mem_append.1 hmem with hm | hm
      · obtain ⟨r, _, e⟩ := List.mem_map.1 hm
        exact ⟨r.name, e.symm⟩
      · obtain ⟨r, _, e⟩ := List.mem_map.1 hm
        exact ⟨r.name, e.symm⟩
    obtain ⟨r, rfl⟩ := hq
    rw [strdup_c_str_cstr]
  · refine ⟨_, freeflags_snapshot h.mem _ _ h.next _ _ _ hfresh, rfl, rfl⟩

/-- Witness of C12 on the example registry (three boolean, two integer records) and
the empty heap starting at address 100: seven blocks are allocated at 100, ..., 106
and released again; a second `zig_luau_freeflags` on the same group faults. -/
theorem snapshot_ownership_balanced_witness :
    (Heap.empty 100).Fresh ∧
    (zig_luau_getflags_heap exRegistry (Heap.empty 100)).1 =
      { names := 100, types := 101, size := 5 } ∧
    (zig_luau_getflags_heap exRegistry (Heap.empty 100)).2.log =
      [HeapEvent.newArray 100, HeapEvent.newArray 101, HeapEvent.malloc 102,
        HeapEvent.malloc 103, HeapEvent.malloc 104, HeapEvent.malloc 105,
        HeapEvent.malloc 106] ∧
    (zig_luau_getflags_heap exRegistry (Heap.empty 100)).2.mem 103 =
      some (Block.chars [121, 0]) ∧
    (∃ h' : Heap,
      zig_luau_freeflags (zig_luau_getflags_heap exRegistry (Heap.empty 100)).1
        (zig_luau_getflags_heap exRegistry (Heap.empty 100)).2 = some h' ∧
      h'.mem = (Heap.empty 100).mem ∧
      h'.log = (zig_luau_getflags_heap exRegistry (Heap.empty 100)).2.log ++
        [HeapEvent.free 102, HeapEvent.free 103, HeapEvent.free 104, HeapEvent.free 105,
          HeapEvent.free 106, HeapEvent.deleteArray 100, HeapEvent.deleteArray 101] ∧
      zig_luau_freeflags (zig_luau_getflags_heap exRegistry (Heap.empty 100)).1 h' = none) := by
  have hf : (Heap.empty 100).Fresh := fun _ _ => rfl
  obtain ⟨h1, h2, _, _, _, _, h7, h', h8, h9, h10⟩ :=
    snapshot_ownership_balanced exRegistry (Heap.empty 100) hf
  refine ⟨hf, h1, h2, h7 1 [121, 0] (by decide), h', h8, h9, h10, ?_⟩
  have hn : h'.mem 100 = none := by rw [h9]; rfl
  have hl : h'.loadPtr 100 0 = none := by simp [Heap.loadPtr, hn]
  have h1' : (zig_luau_getflags_heap exRegistry (Heap.empty 100)).1 =
      { names := 100, types := 101, size := 5 } := h1
  rw [h1']
  simp only [zig_luau_freeflags]
  rw [show List.range 5 = [0, 1, 2, 3, 4] from rfl]
  simp [List.foldlM_cons, hl]

end ZigLuau
